import Mathlib

/-!
Verification of simdjson stage 1 (structural index discovery).

This file gives a shallow embedding, in Lean, of the stage-1 structural
indexer of the simdjson repository (`src/generic/stage1_find_marks.h`) and
of the `JsonStream` construction (`include/simdjson/jsonstream.h`), and
proves properties of the embedded code.

Machine integers are modelled as `Nat` with explicit reduction modulo
`2 ^ 64` (for the bitmask registers) or `2 ^ 32` (for the stored offsets)
exactly where the C code can overflow.  The generic kernel is instantiated
at `SIMD_WIDTH = 64`: the bitmask algebra of the source is defined for
64-bit lanes, and each call of the chunk kernel processes one 64-byte lane.

Helpers that live outside the two given source files
(`compute_quote_mask`, `flatten_bits`, `find_whitespace_and_structurals`,
the `utf8_checker`, and the capacity contract of `ParsedJson`) are
modelled from the specification; each such definition carries a doc
comment starting with `Modelled from the spec:`.
-/

set_option maxRecDepth 10000

/-! ## 64-bit words as natural numbers -/

/-- `2 ^ 64`, the modulus of the 64-bit bitmask registers. -/
def U64 : Nat := 2 ^ 64

/-- Bitwise complement on 64-bit words (`~x` of C on `uint64_t`). -/
def not64 (x : Nat) : Nat := x ^^^ (U64 - 1)

/-! ## Status codes

Stable integer-valued status codes, in the declaration order of the
spec (`SUCCESS=0`, `CAPACITY`, `MEMALLOC`, `TAPE_ERROR`, `DEPTH_ERROR`,
`STRING_ERROR`, `T_ATOM_ERROR`, `F_ATOM_ERROR`, `N_ATOM_ERROR`,
`NUMBER_ERROR`, `UTF8_ERROR`, `UNINITIALIZED`, `EMPTY`,
`UNESCAPED_CHARS`, `UNCLOSED_STRING`, `UNEXPECTED_ERROR`). -/

def SUCCESS : Nat := 0
def CAPACITY : Nat := 1
def UTF8_ERROR : Nat := 10
def EMPTY : Nat := 12
def UNESCAPED_CHARS : Nat := 13
def UNCLOSED_STRING : Nat := 14
def UNEXPECTED_ERROR : Nat := 15

/-! ## Byte classification -/

/-- Modelled from the spec: whitespace bytes are space, tab, LF, CR. -/
def isWhitespaceByte (b : Nat) : Bool :=
  b == 0x20 || b == 0x09 || b == 0x0A || b == 0x0D

/-- Modelled from the spec: structural bytes are `{ } [ ] , :`. -/
def isStructuralByte (b : Nat) : Bool :=
  b == 0x7B || b == 0x7D || b == 0x5B || b == 0x5D || b == 0x2C || b == 0x3A

/-- Bitmask of a 64-byte lane: bit `i` is set iff byte `i` satisfies `p`.
This models the SIMD byte classifications (`in64.eq(c)`, `in64.lteq(c)`,
and the whitespace/structural table lookups) that produce one 64-bit mask
per lane. -/
def maskOf (p : Nat → Bool) : List Nat → Nat
  | [] => 0
  | b :: rest => (if p b then 1 else 0) ||| (maskOf p rest <<< 1)

/-- The natural number whose bits `i < n` are `f i`. -/
def natOfBits (f : Nat → Bool) : Nat → Nat
  | 0 => 0
  | n + 1 => natOfBits f n ||| (if f n then 2 ^ n else 0)

/-! ## The quote-mask prefix XOR -/

/-- Parity (XOR) of the bits of `q` at positions `< n`. -/
def qpar (q : Nat) : Nat → Bool
  | 0 => false
  | n + 1 => (qpar q n).xor (q.testBit n)

/-- Bits `i < n` of the prefix-XOR word: bit `i` is the XOR of the bits of
`q` at positions `≤ i`. -/
def cqmMask (q : Nat) : Nat → Nat
  | 0 => 0
  | n + 1 => cqmMask q n ||| (if qpar q (n + 1) then 2 ^ n else 0)

/-- Modelled from the spec: `compute_quote_mask` (carry-less multiply by
all-ones, absent from the given sources), the prefix XOR over unescaped
quote bits: bit `i` of the result is the XOR of the bits of `quote_bits`
at positions `j ≤ i`. -/
def compute_quote_mask (quote_bits : Nat) : Nat := cqmMask quote_bits 64

/-! ## Flattening a structural bitmask into offsets -/

/-- Positions (in increasing order) of the set bits of a 64-bit mask,
as produced by repeated count-trailing-zeros and clear-lowest-bit. -/
def bitPositions (m : Nat) : List Nat :=
  (List.range 64).filter (fun i => m.testBit i)

/-- Modelled from the spec: `flatten_bits` (absent from the given
sources).  The set bits of the previous lane's structural mask are
extracted in increasing order and written sequentially; the stored
offset is `static_cast<uint32_t>(idx) - 64 + bit` computed in `uint32_t`
arithmetic, `idx` being the base offset of the *current* lane (the mask
belongs to the lane that starts at `idx - 64`). -/
def flattenOffsets (idx : Nat) (bits : Nat) : List Nat :=
  (bitPositions bits).map (fun b => (idx % 2 ^ 32 + (2 ^ 32 - 64) + b) % 2 ^ 32)

/-! ## UTF-8 validation -/

def isUtf8Cont (b : Nat) : Bool := 0x80 ≤ b && b ≤ 0xBF

/-- Modelled from the spec: the incremental UTF-8 validation performed by
the `utf8_checker` (absent from the given sources): RFC 3629
well-formedness of the processed byte stream. -/
def validUtf8 : List Nat → Bool
  | [] => true
  | b :: rest =>
    if b ≤ 0x7F then validUtf8 rest
    else if 0xC2 ≤ b && b ≤ 0xDF then
      match rest with
      | c1 :: r => isUtf8Cont c1 && validUtf8 r
      | [] => false
    else if b == 0xE0 then
      match rest with
      | c1 :: c2 :: r => (0xA0 ≤ c1 && c1 ≤ 0xBF) && isUtf8Cont c2 && validUtf8 r
      | _ => false
    else if (0xE1 ≤ b && b ≤ 0xEC) || b == 0xEE || b == 0xEF then
      match rest with
      | c1 :: c2 :: r => isUtf8Cont c1 && isUtf8Cont c2 && validUtf8 r
      | _ => false
    else if b == 0xED then
      match rest with
      | c1 :: c2 :: r => (0x80 ≤ c1 && c1 ≤ 0x9F) && isUtf8Cont c2 && validUtf8 r
      | _ => false
    else if b == 0xF0 then
      match rest with
      | c1 :: c2 :: c3 :: r =>
        (0x90 ≤ c1 && c1 ≤ 0xBF) && isUtf8Cont c2 && isUtf8Cont c3 && validUtf8 r
      | _ => false
    else if 0xF1 ≤ b && b ≤ 0xF3 then
      match rest with
      | c1 :: c2 :: c3 :: r =>
        isUtf8Cont c1 && isUtf8Cont c2 && isUtf8Cont c3 && validUtf8 r
      | _ => false
    else if b == 0xF4 then
      match rest with
      | c1 :: c2 :: c3 :: r =>
        (0x80 ≤ c1 && c1 ≤ 0x8F) && isUtf8Cont c2 && isUtf8Cont c3 && validUtf8 r
      | _ => false
    else false

/-! ## The three bitmask helpers of `stage1_find_marks.h` -/

/-- Direct translation of `find_odd_backslash_sequences` (lines 15-47 of
`stage1_find_marks.h`).  Returns the `odd_ends` mask and the updated
`prev_iter_ends_odd_backslash` carry.  The C `bool` carry converts to the
`uint64_t` values `0`/`1` where it is XOR-ed and OR-ed in, and
`add_overflow` is 64-bit addition with its carry-out. -/
def find_odd_backslash_sequences (bs_bits : Nat)
    (prev_iter_ends_odd_backslash : Bool) : Nat × Bool :=
  let even_bits : Nat := 0x5555555555555555
  let odd_bits : Nat := not64 even_bits
  let start_edges : Nat := bs_bits &&& not64 ((bs_bits <<< 1) % U64)
  let even_start_mask : Nat :=
    even_bits ^^^ (if prev_iter_ends_odd_backslash then 1 else 0)
  let even_starts : Nat := start_edges &&& even_start_mask
  let odd_starts : Nat := start_edges &&& not64 even_start_mask
  let even_carries : Nat := (bs_bits + even_starts) % U64
  let iter_ends_odd_backslash : Bool := decide (U64 ≤ bs_bits + odd_starts)
  let odd_carries : Nat :=
    ((bs_bits + odd_starts) % U64) |||
      (if prev_iter_ends_odd_backslash then 1 else 0)
  let even_carry_ends : Nat := even_carries &&& not64 bs_bits
  let odd_carry_ends : Nat := odd_carries &&& not64 bs_bits
  let even_start_odd_end : Nat := even_carry_ends &&& odd_bits
  let odd_start_even_end : Nat := odd_carry_ends &&& even_bits
  (even_start_odd_end ||| odd_start_even_end, iter_ends_odd_backslash)

/-- Direct translation of `find_quote_mask_and_bits` (lines 61-75).
Returns `(quote_mask, quote_bits, prev_iter_inside_quote, error_mask)`
with the three by-reference parameters updated.  The final arithmetic
right shift of the sign bit is the all-ones/all-zeros broadcast of bit
63 of `quote_mask`. -/
def find_quote_mask_and_bits (unescaped odd_ends prev_iter_inside_quote
    quote_bits error_mask : Nat) : Nat × Nat × Nat × Nat :=
  let qb : Nat := quote_bits &&& not64 odd_ends
  let quote_mask : Nat := (compute_quote_mask qb) ^^^ prev_iter_inside_quote
  let error_mask2 : Nat := error_mask ||| (quote_mask &&& unescaped)
  let prev2 : Nat := if quote_mask.testBit 63 then U64 - 1 else 0
  (quote_mask, qb, prev2, error_mask2)

/-- Direct translation of `finalize_structurals` (lines 77-108).
Returns the final structural mask for the lane and the updated
`prev_iter_ends_pseudo_pred` carry. -/
def finalize_structurals (structurals whitespace quote_mask quote_bits : Nat)
    (prev_iter_ends_pseudo_pred : Bool) : Nat × Bool :=
  let s1 : Nat := structurals &&& not64 quote_mask
  let s2 : Nat := s1 ||| quote_bits
  let pseudo_pred : Nat := s2 ||| whitespace
  let shifted_pseudo_pred : Nat :=
    ((pseudo_pred <<< 1) % U64) ||| (if prev_iter_ends_pseudo_pred then 1 else 0)
  let new_pp : Bool := pseudo_pred.testBit 63
  let pseudo_structurals : Nat :=
    shifted_pseudo_pred &&& not64 whitespace &&& not64 quote_mask
  let s3 : Nat := s2 ||| pseudo_structurals
  let s4 : Nat := s3 &&& not64 (quote_bits &&& not64 quote_mask)
  (s4, new_pp)

/-! ## The chunk kernel and the driver -/

/-- The six-field carry record threaded between chunk-kernel calls
(`prev_iter_ends_odd_backslash`, `prev_iter_inside_quote`,
`prev_iter_ends_pseudo_pred`, `prev_structurals`, `error_mask`, and the
state of the utf8 checker, modelled as the bytes it has absorbed). -/
structure ScanState where
  prev_iter_ends_odd_backslash : Bool
  prev_iter_inside_quote : Nat
  prev_iter_ends_pseudo_pred : Bool
  prev_structurals : Nat
  error_mask : Nat
  utf8_bytes : List Nat
deriving DecidableEq

/-- The initial carry record of the driver (lines 177-206). -/
def initState : ScanState :=
  { prev_iter_ends_odd_backslash := false
    prev_iter_inside_quote := 0
    prev_iter_ends_pseudo_pred := true
    prev_structurals := 0
    error_mask := 0
    utf8_bytes := [] }

/-- The chunk kernel `find_structural_bits` (lines 111-166) instantiated
at `SIMD_WIDTH = 64`: one call processes the one 64-byte lane `lane`
whose first byte sits at offset `idx`, flattens the *previous*
iteration's structural mask, and advances `idx` by 64.  Returns the
updated carry record and the offsets written by `flatten_bits`. -/
def stepLane (st : ScanState) (lane : List Nat) (idx : Nat) :
    ScanState × List Nat :=
  let utf8b := st.utf8_bytes ++ lane
  let ob := find_odd_backslash_sequences (maskOf (fun b => b == 0x5C) lane)
    st.prev_iter_ends_odd_backslash
  let qr := find_quote_mask_and_bits (maskOf (fun b => decide (b ≤ 0x1F)) lane)
    ob.1 st.prev_iter_inside_quote (maskOf (fun b => b == 0x22) lane)
    st.error_mask
  let ws := maskOf isWhitespaceByte lane
  let sc := maskOf isStructuralByte lane
  let out := flattenOffsets idx st.prev_structurals
  let fin := finalize_structurals sc ws qr.1 qr.2.1 st.prev_iter_ends_pseudo_pred
  (⟨ob.2, qr.2.2.1, fin.2, fin.1, qr.2.2.2, utf8b⟩, out)

/-- Run the chunk kernel over a list of successive 64-byte lanes,
threading the carry record and the running index, and collecting the
flattened offsets in write order. -/
def runLanes (st : ScanState) (idx : Nat) :
    List (List Nat) → ScanState × Nat × List Nat
  | [] => (st, idx, [])
  | lane :: rest =>
    let s := stepLane st lane idx
    let r := runLanes s.1 (idx + 64) rest
    (r.1, r.2.1, s.2 ++ r.2.2)

/-- Fuel-driven worker for `toLanes`; the fuel dominates the list
length, so the fuel pattern never bites. -/
def toLanesAux : Nat → List Nat → List (List Nat)
  | 0, _ => []
  | _ + 1, [] => []
  | fuel + 1, b :: rest =>
    ((b :: rest).take 64) :: toLanesAux fuel ((b :: rest).drop 64)

/-- Split a byte list into successive 64-byte lanes. -/
def toLanes (l : List Nat) : List (List Nat) := toLanesAux l.length l

/-- The main loop and tail handling of the driver (lines 203-224): full
64-byte lanes are scanned while `idx < last_chunk_idx`, then the
remaining at-most-64-byte tail is copied into a 64-byte scratch buffer
pre-filled with the space byte `0x20` and scanned from there.  Returns
the final carry record, the total number of bytes scanned, and the
offsets written so far. -/
def stage1Core (buf : List Nat) (len : Nat) : ScanState × Nat × List Nat :=
  let last_chunk_idx := if len < 64 then 0 else len - 64
  let numFull := (last_chunk_idx + 63) / 64
  let r1 := runLanes initState 0 (toLanes (buf.take (64 * numFull)))
  if r1.2.1 < len then
    let lane := (buf.drop r1.2.1).take (len - r1.2.1) ++
      List.replicate (64 - (len - r1.2.1)) 0x20
    let s := stepLane r1.1 lane r1.2.1
    (s.1, r1.2.1 + 64, r1.2.2 ++ s.2)
  else r1

/-- Modelled from the spec: the output object (`ParsedJson`, absent from
the given sources).  It advertises `byte_capacity`; offsets and the
index count are 32-bit, so a valid output object never advertises a
capacity above `0xFFFFFFFF` (the allocator rejects larger documents). -/
structure ParsedJson where
  byte_capacity : Nat
  capacity_le : byte_capacity ≤ 4294967295

/-- The observable result of `find_structural_bits`: the returned status
code, the sequence of 32-bit values written into
`pj.structural_indexes` (in write order, slot `k` of the array receiving
the `k`-th element), and the final value of `pj.n_structural_indexes`
(`none` when the function returns without ever assigning it). -/
structure Stage1Result where
  code : Nat
  written : List Nat
  n_structural_indexes : Option Nat
deriving DecidableEq

/-- All offsets written by a completed scan: those flattened during the
lane loop followed by the final flatten of the last lane's structural
mask (line 233). -/
def stage1AllOffsets (buf : List Nat) (len : Nat) : List Nat :=
  (stage1Core buf len).2.2 ++
    flattenOffsets (stage1Core buf len).2.1 (stage1Core buf len).1.prev_structurals

/-- The end-of-scan bookkeeping of the driver past the unclosed-string
check (lines 235-254): sets `n_structural_indexes`, checks for
emptiness and for an offset past `len`, appends the virtual terminator
`len` (stored as `uint32_t`) when the last offset differs from `len`,
writes the guard `0` one slot beyond the count, and reports
`UNESCAPED_CHARS` or the utf8 verdict. -/
def stage1Tail (out3 : List Nat) (len : Nat) (err : Nat) (u8 : List Nat) :
    Stage1Result :=
  if out3.length = 0 then ⟨EMPTY, out3, some 0⟩
  else if len < out3.getD (out3.length - 1) 0 then
    ⟨UNEXPECTED_ERROR, out3, some out3.length⟩
  else
    let status :=
      if err ≠ 0 then UNESCAPED_CHARS
      else if validUtf8 u8 then SUCCESS else UTF8_ERROR
    if len ≠ out3.getD (out3.length - 1) 0 then
      ⟨status, out3 ++ [len % 2 ^ 32, 0], some (out3.length + 1)⟩
    else
      ⟨status, out3 ++ [0], some out3.length⟩

/-- Direct translation of the driver `find_structural_bits(buf, len, pj)`
(lines 168-255), with `buf` the readable byte buffer and `len` the
document length. -/
def find_structural_bits (buf : List Nat) (len : Nat) (pj : ParsedJson) :
    Stage1Result :=
  if len > pj.byte_capacity then ⟨CAPACITY, [], none⟩
  else if (stage1Core buf len).1.prev_iter_inside_quote ≠ 0 then
    ⟨UNCLOSED_STRING, (stage1Core buf len).2.2, none⟩
  else
    stage1Tail (stage1AllOffsets buf len) len (stage1Core buf len).1.error_mask
      (stage1Core buf len).1.utf8_bytes

/-- Run the chunk kernel over each chunk of a chunked buffer in order
(each chunk being scanned lane by lane, as the driver's main loop does),
threading the carry record and the index between chunks. -/
def runChunks (st : ScanState) (idx : Nat) :
    List (List Nat) → ScanState × Nat × List Nat
  | [] => (st, idx, [])
  | c :: cs =>
    let r := runLanes st idx (toLanes c)
    let r2 := runChunks r.1 r.2.1 cs
    (r2.1, r2.2.1, r.2.2 ++ r2.2.2)

/-! ## JsonStream -/

/-- Translation of the `JsonStream` class state
(`include/simdjson/jsonstream.h`). -/
structure JsonStream where
  buf : List Nat
  len : Nat
  batch_size : Nat
  next_json : Nat
  error_on_last_attempt : Bool
  load_next_batch : Bool
  current_buffer_loc : Nat
  n_parsed_docs : Nat
  n_bytes_parsed : Nat

/-- The `JsonStream(const char *buf, size_t len, size_t batch_size =
1000000)` constructor; a call without the third argument uses the
default. -/
def JsonStream.make (buf : List Nat) (len : Nat)
    (batch_size : Nat := 1000000) : JsonStream :=
  ⟨buf, len, batch_size, 0, false, true, 0, 0, 0⟩

/-- The `JsonStream(const std::string &s, size_t batch_size = 1000000)`
constructor, delegating to the pointer/length constructor. -/
def JsonStream.ofString (s : List Nat) (batch_size : Nat := 1000000) :
    JsonStream :=
  JsonStream.make s s.length batch_size

/-! ## Sequential (per-byte) reference view of the scanned stream

`L` is the full processed stream: the input bytes followed by the space
padding of the final scratch lane.  These definitions give the per-byte
meaning of the bitmask pipeline and are related to it by the bridge
lemmas below. -/

/-- Byte `i-1` ends an odd-length backslash run: the escape state seen by
byte `i`. -/
def gE (L : List Nat) : Nat → Bool
  | 0 => false
  | i + 1 => (L.getD i 0 == 0x5C) && !(gE L i)

/-- Byte `i` is an unescaped quote. -/
def gUQ (L : List Nat) (i : Nat) : Bool :=
  (L.getD i 0 == 0x22) && !(gE L i)

/-- Parity of the unescaped quotes at positions `< n`: whether position
`n` starts inside a string. -/
def gQpar (L : List Nat) : Nat → Bool
  | 0 => false
  | i + 1 => (gQpar L i).xor (gUQ L i)

/-- Bit `i` of the (global) quote mask: the half-open string cover,
set from each opening quote up to but excluding its closing quote. -/
def gQM (L : List Nat) (i : Nat) : Bool := gQpar L (i + 1)

def gWS (L : List Nat) (i : Nat) : Bool := isWhitespaceByte (L.getD i 0)

def gSC (L : List Nat) (i : Nat) : Bool := isStructuralByte (L.getD i 0)

def gCtrl (L : List Nat) (i : Nat) : Bool := decide (L.getD i 0 ≤ 0x1F)

/-- Byte `i` is a qualified predecessor of a pseudo-structural byte. -/
def gPseudoPred (L : List Nat) (i : Nat) : Bool :=
  ((gSC L i && !gQM L i) || gUQ L i) || gWS L i

/-- The shifted pseudo-predecessor stream (seeded `true` before byte 0). -/
def gShift (L : List Nat) : Nat → Bool
  | 0 => true
  | i + 1 => gPseudoPred L i

/-- Bit `i` of the final structural mask produced by
`finalize_structurals`, expressed per byte. -/
def gOut (L : List Nat) (i : Nat) : Bool :=
  (((gSC L i && !gQM L i) || gUQ L i) ||
    ((gShift L i && !gWS L i) && !gQM L i)) && !(gUQ L i && !gQM L i)

/-- The structural mask of lane `t - 1` (flattened while lane `t` is being
scanned); `0` before the first lane. -/
def prevStructMask (L : List Nat) : Nat → Nat
  | 0 => 0
  | s + 1 => natOfBits (fun j => gOut L (64 * s + j)) 64

/-- The accumulated `error_mask` after `t` lanes. -/
def gErrAcc (L : List Nat) : Nat → Nat
  | 0 => 0
  | t + 1 => gErrAcc L t |||
      natOfBits (fun j => gQM L (64 * t + j) && gCtrl L (64 * t + j)) 64

/-- The carry record after `t` lanes of `L` have been scanned. -/
def stateAt (L : List Nat) (t : Nat) : ScanState :=
  { prev_iter_ends_odd_backslash := gE L (64 * t)
    prev_iter_inside_quote := if gQpar L (64 * t) then U64 - 1 else 0
    prev_iter_ends_pseudo_pred := gShift L (64 * t)
    prev_structurals := prevStructMask L t
    error_mask := gErrAcc L t
    utf8_bytes := L.take (64 * t) }

/-- The offsets flattened while lane `t` is scanned (those of lane
`t - 1`). -/
def emitLane (L : List Nat) (t : Nat) : List Nat :=
  flattenOffsets (64 * t) (prevStructMask L t)

/-- The offsets flattened while lanes `t, t+1, …, t+k-1` are scanned. -/
def emitBetween (L : List Nat) : Nat → Nat → List Nat
  | _, 0 => []
  | t, k + 1 => emitLane L t ++ emitBetween L (t + 1) k

/-- A well-formed string literal of `L` from the unescaped opening quote
at `o` to its matching unescaped closing quote at `c`: the opening quote
is not itself inside a string, and no unescaped quote lies strictly
between the two. -/
def wfLiteralB (L : List Nat) (o c : Nat) : Bool :=
  decide (o < c) && decide (c < L.length) && gUQ L o && gUQ L c &&
    decide (∀ j < c, o < j → gUQ L j = false) && !(gQpar L o)

/-- Carry into bit `i` of the addition `a + b`. -/
def addCarry (a b : Nat) (i : Nat) : Bool :=
  decide (2 ^ i ≤ a % 2 ^ i + b % 2 ^ i)

/-- Sequential escape-parity automaton over one 64-bit lane:
`eSeq bs prev i` holds iff the backslash run of `bs` immediately below
position `i` has odd length (a pending odd run from the previous lane
entering through `prev`). -/
def eSeq (bs : Nat) (prev : Bool) : Nat → Bool
  | 0 => prev
  | i + 1 => bs.testBit i && !eSeq bs prev i

/-- The `start_edges` word of `find_odd_backslash_sequences`. -/
def bsStartEdges (bs : Nat) : Nat := bs &&& not64 ((bs <<< 1) % U64)

/-- The `even_start_mask` word of `find_odd_backslash_sequences`. -/
def bsEvenStartMask (prev : Bool) : Nat :=
  0x5555555555555555 ^^^ (if prev then 1 else 0)

/-- The `even_starts` word of `find_odd_backslash_sequences`. -/
def bsEvenStarts (bs : Nat) (prev : Bool) : Nat :=
  bsStartEdges bs &&& bsEvenStartMask prev

/-- The `odd_starts` word of `find_odd_backslash_sequences`. -/
def bsOddStarts (bs : Nat) (prev : Bool) : Nat :=
  bsStartEdges bs &&& not64 (bsEvenStartMask prev)

/-- The `odd_ends` word returned by `find_odd_backslash_sequences`. -/
def oddEndsWord (bs : Nat) (prev : Bool) : Nat :=
  ((((bs + bsEvenStarts bs prev) % U64) &&& not64 bs) &&&
      not64 0x5555555555555555) |||
    (((((bs + bsOddStarts bs prev) % U64) ||| (if prev then 1 else 0)) &&&
        not64 bs) &&& 0x5555555555555555)

/-- Total number of 64-byte lanes scanned for a document of `len > 0`
bytes: the full lanes of the main loop plus the final scratch lane. -/
def numLanes (len : Nat) : Nat := (len + 63) / 64

/-- The processed byte stream: the document bytes followed by the space
padding of the final scratch lane. -/
def paddedStream (buf : List Nat) : List Nat :=
  buf ++ List.replicate (64 * numLanes buf.length - buf.length) 0x20

/-! # Theorems -/

/-! ## Bit-level utility lemmas -/

theorem testBit_high_of_lt {x : Nat} (h : x < 2 ^ 64) {i : Nat} (hi : 64 ≤ i) :
    x.testBit i = false :=
  Nat.testBit_lt_two_pow (lt_of_lt_of_le h (Nat.pow_le_pow_right (by norm_num) hi))

theorem not64_lt {x : Nat} (hx : x < 2 ^ 64) : not64 x < 2 ^ 64 :=
  Nat.xor_lt_two_pow hx (by unfold U64; norm_num)

theorem testBit_not64 {x : Nat} (hx : x < 2 ^ 64) (i : Nat) :
    (not64 x).testBit i = (decide (i < 64) && !x.testBit i) := by
  unfold not64 U64
  rw [Nat.testBit_xor, Nat.testBit_two_pow_sub_one]
  by_cases hi : i < 64
  · simp [hi]
  · have h2 : x.testBit i = false := testBit_high_of_lt hx (by omega)
    simp [hi, h2]

theorem testBit_boolVal {b : Bool} {i : Nat} :
    (if b then (1 : Nat) else 0).testBit i = (decide (i = 0) && b) := by
  cases b <;> cases i <;> simp [Nat.testBit_succ]

theorem testBit_maskOf (p : Nat → Bool) :
    ∀ (l : List Nat) (i : Nat),
      (maskOf p l).testBit i = (decide (i < l.length) && p (l.getD i 0))
  | [], i => by simp [maskOf]
  | b :: rest, i => by
    unfold maskOf
    rw [Nat.testBit_or, Nat.testBit_shiftLeft]
    cases i with
    | zero => cases hpb : p b <;> simp [hpb]
    | succ j =>
      have hj : j + 1 - 1 = j := rfl
      rw [hj, testBit_maskOf p rest j]
      cases hpb : p b <;>
        simp [hpb, Nat.testBit_succ, Nat.succ_lt_succ_iff, List.getD_cons_succ]

theorem maskOf_lt (p : Nat → Bool) :
    ∀ l : List Nat, maskOf p l < 2 ^ l.length
  | [] => by simp [maskOf]
  | b :: rest => by
    unfold maskOf
    apply Nat.or_lt_two_pow
    · have h1 : (1 : Nat) < 2 ^ (b :: rest).length :=
        Nat.one_lt_two_pow_iff.mpr (by simp)
      split <;> omega
    · have h := maskOf_lt p rest
      have h2 : maskOf p rest <<< 1 = maskOf p rest * 2 := by
        simp [Nat.shiftLeft_eq]
      rw [h2, List.length_cons, pow_succ]
      omega

theorem testBit_natOfBits (f : Nat → Bool) :
    ∀ (n i : Nat), (natOfBits f n).testBit i = (decide (i < n) && f i)
  | 0, i => by simp [natOfBits]
  | n + 1, i => by
    unfold natOfBits
    rw [Nat.testBit_or, testBit_natOfBits f n i]
    rcases Nat.lt_trichotomy i n with h | h | h
    · have h2 : i < n + 1 := by omega
      have h3 : n ≠ i := by omega
      cases hf : f n <;> simp [h, h2, h3, hf, Nat.testBit_two_pow]
    · subst h
      cases hf : f i <;> simp [hf, Nat.testBit_two_pow]
    · have h1 : ¬ i < n := by omega
      have h2 : ¬ i < n + 1 := by omega
      have h3 : n ≠ i := by omega
      cases hf : f n <;> simp [h1, h2, h3, hf, Nat.testBit_two_pow]

theorem natOfBits_lt (f : Nat → Bool) : ∀ n, natOfBits f n < 2 ^ n
  | 0 => by simp [natOfBits]
  | n + 1 => by
    unfold natOfBits
    apply Nat.or_lt_two_pow
    · exact lt_of_lt_of_le (natOfBits_lt f n) (Nat.pow_le_pow_right (by norm_num) (by omega))
    · split
      · exact Nat.pow_lt_pow_right (by norm_num) (by omega)
      · positivity

theorem testBit_cqmMask (q : Nat) :
    ∀ (n i : Nat), (cqmMask q n).testBit i = (decide (i < n) && qpar q (i + 1))
  | 0, i => by simp [cqmMask]
  | n + 1, i => by
    unfold cqmMask
    rw [Nat.testBit_or, testBit_cqmMask q n i]
    rcases Nat.lt_trichotomy i n with h | h | h
    · have h2 : i < n + 1 := by omega
      have h3 : n ≠ i := by omega
      cases hf : qpar q (n + 1) <;> simp [h, h2, h3, hf, Nat.testBit_two_pow]
    · subst h
      cases hf : qpar q (i + 1) <;> simp [hf, Nat.testBit_two_pow]
    · have h1 : ¬ i < n := by omega
      have h2 : ¬ i < n + 1 := by omega
      have h3 : n ≠ i := by omega
      cases hf : qpar q (n + 1) <;> simp [h1, h2, h3, hf, Nat.testBit_two_pow]

theorem cqmMask_lt (q : Nat) : ∀ n, cqmMask q n < 2 ^ n
  | 0 => by simp [cqmMask]
  | n + 1 => by
    unfold cqmMask
    apply Nat.or_lt_two_pow
    · exact lt_of_lt_of_le (cqmMask_lt q n) (Nat.pow_le_pow_right (by norm_num) (by omega))
    · split
      · exact Nat.pow_lt_pow_right (by norm_num) (by omega)
      · positivity

/-! ## Binary addition carries -/

theorem addCarry_zero (a b : Nat) : addCarry a b 0 = false := by
  simp [addCarry, Nat.mod_one]

theorem mod_two_pow_succ (a i : Nat) :
    a % 2 ^ (i + 1) = a % 2 ^ i + 2 ^ i * (a / 2 ^ i % 2) := by
  rw [pow_succ, Nat.mod_mul]

theorem div_pow_mod_two (a i : Nat) :
    a / 2 ^ i % 2 = (a.testBit i).toNat := by
  rw [Nat.testBit_to_div_mod]
  rcases Nat.mod_two_eq_zero_or_one (a / 2 ^ i) with h | h <;> rw [h] <;> simp

theorem addCarry_succ (a b i : Nat) :
    addCarry a b (i + 1) =
      ((a.testBit i && b.testBit i) ||
        (addCarry a b i && (a.testBit i || b.testBit i))) := by
  have h2 : (0 : Nat) < 2 ^ i := by positivity
  have hma : a % 2 ^ i < 2 ^ i := Nat.mod_lt _ h2
  have hmb : b % 2 ^ i < 2 ^ i := Nat.mod_lt _ h2
  have hp : (2 : Nat) ^ (i + 1) = 2 * 2 ^ i := by ring
  unfold addCarry
  rw [mod_two_pow_succ a i, mod_two_pow_succ b i, div_pow_mod_two, div_pow_mod_two]
  cases ha : a.testBit i <;> cases hb : b.testBit i <;>
    simp only [Bool.toNat_true, Bool.toNat_false, Nat.mul_one, Nat.mul_zero,
      Nat.add_zero, Bool.true_and, Bool.false_and, Bool.and_true, Bool.and_false,
      Bool.true_or, Bool.false_or, Bool.or_true, Bool.or_false] <;>
    first
      | (simp only [decide_eq_true_eq]; omega)
      | (simp only [decide_eq_false_iff_not]; omega)
      | (simp only [decide_eq_decide]; omega)

theorem add_div_two_pow (a b i : Nat) :
    (a + b) / 2 ^ i = a / 2 ^ i + b / 2 ^ i + (addCarry a b i).toNat := by
  have h2 : (0 : Nat) < 2 ^ i := by positivity
  have hma : a % 2 ^ i < 2 ^ i := Nat.mod_lt _ h2
  have hmb : b % 2 ^ i < 2 ^ i := Nat.mod_lt _ h2
  have ha := Nat.div_add_mod a (2 ^ i)
  have hb := Nat.div_add_mod b (2 ^ i)
  have hsum : a + b = 2 ^ i * (a / 2 ^ i + b / 2 ^ i) + (a % 2 ^ i + b % 2 ^ i) := by
    rw [Nat.mul_add]
    omega
  cases hc : addCarry a b i
  · unfold addCarry at hc
    simp only [decide_eq_false_iff_not, not_le] at hc
    have hr : (a % 2 ^ i + b % 2 ^ i) / 2 ^ i = 0 := Nat.div_eq_of_lt (by omega)
    rw [hsum, Nat.mul_add_div h2, hr]
    simp
  · unfold addCarry at hc
    simp only [decide_eq_true_eq] at hc
    have hr : (a % 2 ^ i + b % 2 ^ i) / 2 ^ i = 1 :=
      Nat.div_eq_of_lt_le (by omega) (by omega)
    rw [hsum, Nat.mul_add_div h2, hr]
    simp

theorem testBit_add (a b i : Nat) :
    (a + b).testBit i =
      (((a.testBit i).xor (b.testBit i)).xor (addCarry a b i)) := by
  rw [Nat.testBit_to_div_mod, Nat.testBit_to_div_mod, Nat.testBit_to_div_mod,
    add_div_two_pow a b i]
  rcases Nat.mod_two_eq_zero_or_one (a / 2 ^ i) with h1 | h1 <;>
    rcases Nat.mod_two_eq_zero_or_one (b / 2 ^ i) with h2 | h2 <;>
      cases hc : addCarry a b i <;>
        simp [h1, h2] <;> omega

/-! ## The even-bits constant -/

theorem testBit_evenBits (i : Nat) :
    (0x5555555555555555 : Nat).testBit i =
      (decide (i < 64) && decide (i % 2 = 0)) := by
  by_cases hi : i < 64
  · have h : ∀ j, j < 64 →
        ((0x5555555555555555 : Nat).testBit j = decide (j % 2 = 0)) := by decide
    rw [h i hi]
    simp [hi]
  · have h2 : (0x5555555555555555 : Nat).testBit i = false :=
      testBit_high_of_lt (by norm_num) (by omega)
    simp [hi, h2]

/-! ## Characterisation of `find_odd_backslash_sequences` -/

theorem find_odd_backslash_sequences_eq (bs : Nat) (prev : Bool) :
    find_odd_backslash_sequences bs prev =
      (oddEndsWord bs prev, decide (U64 ≤ bs + bsOddStarts bs prev)) := rfl

theorem testBit_bsStartEdges {bs : Nat} (hbs : bs < 2 ^ 64) {j : Nat}
    (hj : j < 64) :
    (bsStartEdges bs).testBit j =
      (bs.testBit j && !(decide (j ≥ 1) && bs.testBit (j - 1))) := by
  unfold bsStartEdges
  have hsh : (bs <<< 1) % U64 < 2 ^ 64 := by
    unfold U64
    exact Nat.mod_lt _ (by positivity)
  rw [Nat.testBit_and, testBit_not64 hsh j]
  unfold U64
  rw [Nat.testBit_mod_two_pow, Nat.testBit_shiftLeft]
  simp [hj]

theorem bsEvenStartMask_lt (prev : Bool) : bsEvenStartMask prev < 2 ^ 64 := by
  unfold bsEvenStartMask
  apply Nat.xor_lt_two_pow (by norm_num)
  cases prev <;> norm_num

theorem testBit_bsEvenStartMask (prev : Bool) {j : Nat} (hj : j < 64) :
    (bsEvenStartMask prev).testBit j =
      ((decide (j % 2 = 0)).xor (decide (j = 0) && prev)) := by
  unfold bsEvenStartMask
  rw [Nat.testBit_xor, testBit_evenBits, testBit_boolVal]
  simp [hj]

theorem testBit_bsOddStarts (bs : Nat) (prev : Bool) {j : Nat} (hj : j < 64) :
    (bsOddStarts bs prev).testBit j =
      ((bsStartEdges bs).testBit j && !(bsEvenStartMask prev).testBit j) := by
  unfold bsOddStarts
  rw [Nat.testBit_and, testBit_not64 (bsEvenStartMask_lt prev) j]
  simp [hj]

theorem testBit_bsEvenStarts (bs : Nat) (prev : Bool) (j : Nat) :
    (bsEvenStarts bs prev).testBit j =
      ((bsStartEdges bs).testBit j && (bsEvenStartMask prev).testBit j) :=
  Nat.testBit_and _ _ j

theorem parity_succ_zero (n : Nat) :
    decide ((n + 1) % 2 = 0) = decide (n % 2 = 1) := by
  simp only [decide_eq_decide]
  omega

theorem parity_succ_one (n : Nat) :
    decide ((n + 1) % 2 = 1) = decide (n % 2 = 0) := by
  simp only [decide_eq_decide]
  omega

theorem odd_backslash_inv (bs : Nat) (prev : Bool) (hbs : bs < 2 ^ 64) :
    ∀ i, i ≤ 64 →
      (¬(addCarry bs (bsEvenStarts bs prev) i = true ∧
          (addCarry bs (bsOddStarts bs prev) i || (decide (i = 0) && prev)) = true)) ∧
      (eSeq bs prev i =
        ((addCarry bs (bsOddStarts bs prev) i || (decide (i = 0) && prev)) &&
            decide (i % 2 = 0) ||
          (addCarry bs (bsEvenStarts bs prev) i && decide (i % 2 = 1)))) ∧
      ((addCarry bs (bsEvenStarts bs prev) i = true ∨
          addCarry bs (bsOddStarts bs prev) i = true) →
        0 < i ∧ bs.testBit (i - 1) = true) ∧
      ((0 < i ∧ bs.testBit (i - 1) = true) →
        (addCarry bs (bsEvenStarts bs prev) i = true ∨
          (addCarry bs (bsOddStarts bs prev) i || (decide (i = 0) && prev)) = true)) := by
  intro i
  induction i with
  | zero =>
    intro _
    refine ⟨?_, ?_, ?_, ?_⟩ <;> simp [addCarry_zero, eSeq]
  | succ n ih =>
    intro hn1
    have hn64 : n < 64 := by omega
    obtain ⟨ih1, ih2, ih3, ih4⟩ := ih (by omega)
    have hcEs := addCarry_succ bs (bsEvenStarts bs prev) n
    have hcOs := addCarry_succ bs (bsOddStarts bs prev) n
    have hSE := testBit_bsStartEdges hbs hn64
    have hM := testBit_bsEvenStartMask prev hn64
    have hESbit := testBit_bsEvenStarts bs prev n
    have hOSbit := testBit_bsOddStarts bs prev hn64
    have heS : eSeq bs prev (n + 1) = (bs.testBit n && !eSeq bs prev n) := rfl
    cases hB : bs.testBit n with
    | false =>
      have hES0 : (bsEvenStarts bs prev).testBit n = false := by
        rw [hESbit, hSE, hB]; simp
      have hOS0 : (bsOddStarts bs prev).testBit n = false := by
        rw [hOSbit, hSE, hB]; simp
      have hcE1 : addCarry bs (bsEvenStarts bs prev) (n + 1) = false := by
        rw [hcEs, hB, hES0]; simp
      have hcO1 : addCarry bs (bsOddStarts bs prev) (n + 1) = false := by
        rw [hcOs, hB, hOS0]; simp
      refine ⟨?_, ?_, ?_, ?_⟩
      · simp [hcE1]
      · rw [heS, hB, hcE1, hcO1]; simp
      · intro h; rcases h with h | h <;> simp_all
      · intro h
        have : bs.testBit n = true := by simpa using h.2
        rw [hB] at this
        exact absurd this (by simp)
    | true =>
      by_cases hStart : (bsStartEdges bs).testBit n = true
      · -- a run starts at bit n: incoming carries are dead
        have hdead : addCarry bs (bsEvenStarts bs prev) n = false ∧
            addCarry bs (bsOddStarts bs prev) n = false := by
          rcases Nat.eq_zero_or_pos n with h0 | hpos
          · subst h0
            exact ⟨addCarry_zero _ _, addCarry_zero _ _⟩
          · have hb1 : bs.testBit (n - 1) = false := by
              rw [hSE, hB] at hStart
              simp only [Bool.true_and, Bool.not_eq_true'] at hStart
              simpa [Nat.one_le_iff_ne_zero, Nat.pos_iff_ne_zero.mp hpos] using hStart
            constructor
            · cases hc : addCarry bs (bsEvenStarts bs prev) n
              · rfl
              · have := (ih3 (Or.inl hc)).2
                rw [hb1] at this
                exact absurd this (by simp)
            · cases hc : addCarry bs (bsOddStarts bs prev) n
              · rfl
              · have := (ih3 (Or.inr hc)).2
                rw [hb1] at this
                exact absurd this (by simp)
        have hcE1 : addCarry bs (bsEvenStarts bs prev) (n + 1) =
            (bsEvenStartMask prev).testBit n := by
          rw [hcEs, hB, hdead.1, hESbit, hStart]; simp
        have hcO1 : addCarry bs (bsOddStarts bs prev) (n + 1) =
            !(bsEvenStartMask prev).testBit n := by
          rw [hcOs, hB, hdead.2, hOSbit, hStart]; simp
        rcases Nat.eq_zero_or_pos n with h0 | hpos
        · -- n = 0: the mask bit is !prev
          subst h0
          have hM0 : (bsEvenStartMask prev).testBit 0 = !prev := by
            rw [hM]; cases prev <;> simp
          refine ⟨?_, ?_, ?_, ?_⟩
          · rw [hcE1, hcO1, hM0]; cases prev <;> simp
          · rw [heS, hB, hcE1, hcO1, hM0]
            simp only [eSeq]
            cases prev <;> simp
          · intro _
            exact ⟨by omega, by simpa using hB⟩
          · intro _
            rw [hcE1, hcO1, hM0]
            cases prev <;> simp
        · -- n ≥ 1 and bs.testBit (n-1) = false
          have hb1 : bs.testBit (n - 1) = false := by
            rw [hSE, hB] at hStart
            simp only [Bool.true_and, Bool.not_eq_true'] at hStart
            simpa [Nat.one_le_iff_ne_zero, Nat.pos_iff_ne_zero.mp hpos] using hStart
          have hMn : (bsEvenStartMask prev).testBit n = decide (n % 2 = 0) := by
            rw [hM]
            have : decide (n = 0) = false := by simp [Nat.pos_iff_ne_zero.mp hpos]
            rw [this]
            cases hpar : decide (n % 2 = 0) <;> simp
          have heSn : eSeq bs prev n = false := by
            obtain ⟨m, rfl⟩ : ∃ m, n = m + 1 := ⟨n - 1, by omega⟩
            have hbm : bs.testBit m = false := by simpa using hb1
            simp [eSeq, hbm]
          refine ⟨?_, ?_, ?_, ?_⟩
          · rw [hcE1, hcO1, hMn]
            cases hpar : decide (n % 2 = 0) <;> simp
          · rw [heS, hB, heSn, hcE1, hcO1, hMn, parity_succ_zero, parity_succ_one]
            have hz : decide (n + 1 = 0) = false := by simp
            rw [hz]
            rcases Nat.mod_two_eq_zero_or_one n with h | h <;> simp [h]
          · intro _
            exact ⟨by omega, by simpa using hB⟩
          · intro _
            rw [hcE1, hcO1, hMn]
            cases hpar : decide (n % 2 = 0) <;> simp
      · -- inside a run: carries propagate unchanged
        have hStart' : (bsStartEdges bs).testBit n = false := by
          simpa using hStart
        have hrun : 1 ≤ n ∧ bs.testBit (n - 1) = true := by
          rw [hSE, hB] at hStart'
          simp only [Bool.true_and, Bool.not_eq_eq_eq_not, Bool.not_false] at hStart'
          constructor
          · by_contra hc
            have : decide (n ≥ 1) = false := by simpa using hc
            rw [this] at hStart'
            simp at hStart'
          · have h1 : decide (n ≥ 1) = true := by
              by_contra hc
              have : decide (n ≥ 1) = false := by simpa using hc
              rw [this] at hStart'
              simp at hStart'
            rw [h1] at hStart'
            simpa using hStart'
        have hES0 : (bsEvenStarts bs prev).testBit n = false := by
          rw [hESbit, hStart']; simp
        have hOS0 : (bsOddStarts bs prev).testBit n = false := by
          rw [hOSbit, hStart']; simp
        have hcE1 : addCarry bs (bsEvenStarts bs prev) (n + 1) =
            addCarry bs (bsEvenStarts bs prev) n := by
          rw [hcEs, hB, hES0]; simp
        have hcO1 : addCarry bs (bsOddStarts bs prev) (n + 1) =
            addCarry bs (bsOddStarts bs prev) n := by
          rw [hcOs, hB, hOS0]; simp
        have hz : decide (n = 0) = false := by simp [show n ≠ 0 by omega]
        have hz1 : decide (n + 1 = 0) = false := by simp
        have halive : addCarry bs (bsEvenStarts bs prev) n = true ∨
            addCarry bs (bsOddStarts bs prev) n = true := by
          have := ih4 ⟨by omega, hrun.2⟩
          rcases this with h | h
          · exact Or.inl h
          · rw [hz] at h
            simp only [Bool.false_and, Bool.and_false, Bool.or_false] at h
            exact Or.inr h
        rw [hz] at ih1 ih2
        simp only [Bool.false_and, Bool.and_false, Bool.or_false] at ih1 ih2
        refine ⟨?_, ?_, ?_, ?_⟩
        · rw [hcE1, hcO1, hz1]
          simpa using ih1
        · rw [heS, hB, hcE1, hcO1, hz1, parity_succ_zero, parity_succ_one, ih2]
          simp only [Bool.false_and, Bool.and_false, Bool.or_false, Bool.true_and]
          rcases halive with h | h <;>
            rcases Nat.mod_two_eq_zero_or_one n with hp | hp
          · have hO : addCarry bs (bsOddStarts bs prev) n = false := by
              cases hc : addCarry bs (bsOddStarts bs prev) n
              · rfl
              · exact absurd ⟨h, hc⟩ ih1
            simp [h, hO, hp]
          · have hO : addCarry bs (bsOddStarts bs prev) n = false := by
              cases hc : addCarry bs (bsOddStarts bs prev) n
              · rfl
              · exact absurd ⟨h, hc⟩ ih1
            simp [h, hO, hp]
          · have hE : addCarry bs (bsEvenStarts bs prev) n = false := by
              cases hc : addCarry bs (bsEvenStarts bs prev) n
              · rfl
              · exact absurd ⟨hc, h⟩ ih1
            simp [h, hE, hp]
          · have hE : addCarry bs (bsEvenStarts bs prev) n = false := by
              cases hc : addCarry bs (bsEvenStarts bs prev) n
              · rfl
              · exact absurd ⟨hc, h⟩ ih1
            simp [h, hE, hp]
        · intro _
          exact ⟨by omega, by simpa using hB⟩
        · intro _
          rw [hcE1, hcO1, hz1]
          simp only [Bool.false_and, Bool.and_false, Bool.or_false]
          exact halive

theorem oddEndsWord_testBit (bs : Nat) (prev : Bool) (hbs : bs < 2 ^ 64)
    {i : Nat} (hi : i < 64) :
    (oddEndsWord bs prev).testBit i = (eSeq bs prev i && !bs.testBit i) := by
  obtain ⟨inv1, inv2, _, _⟩ := odd_backslash_inv bs prev hbs i (by omega)
  have h55 : (0x5555555555555555 : Nat) < 2 ^ 64 := by norm_num
  have hmodE : ((bs + bsEvenStarts bs prev) % U64).testBit i =
      (bs + bsEvenStarts bs prev).testBit i := by
    unfold U64
    rw [Nat.testBit_mod_two_pow]
    simp [hi]
  have hmodO : ((bs + bsOddStarts bs prev) % U64).testBit i =
      (bs + bsOddStarts bs prev).testBit i := by
    unfold U64
    rw [Nat.testBit_mod_two_pow]
    simp [hi]
  unfold oddEndsWord
  simp only [Nat.testBit_or, Nat.testBit_and, hmodE, hmodO, testBit_add,
    testBit_not64 hbs, testBit_not64 h55, testBit_evenBits, testBit_boolVal, hi,
    decide_True, Bool.true_and, Bool.and_true]
  cases hbsi : bs.testBit i with
  | true => simp [hbsi]
  | false =>
    have hESi : (bsEvenStarts bs prev).testBit i = false := by
      rw [testBit_bsEvenStarts, testBit_bsStartEdges hbs hi, hbsi]
      simp
    have hOSi : (bsOddStarts bs prev).testBit i = false := by
      rw [testBit_bsOddStarts bs prev hi, testBit_bsStartEdges hbs hi, hbsi]
      simp
    have hpar : decide (i % 2 = 1) = !decide (i % 2 = 0) := by
      rcases Nat.mod_two_eq_zero_or_one i with h | h <;> simp [h]
    rw [hpar] at inv2
    simp only [hbsi, hESi, hOSi, Bool.xor_false, Bool.false_xor, Bool.not_false,
      Bool.and_true]
    rw [inv2]
    cases hcE : addCarry bs (bsEvenStarts bs prev) i <;>
      cases hcO : addCarry bs (bsOddStarts bs prev) i <;>
        cases hd0 : decide (i = 0) <;> cases prev <;>
          cases hpe : decide (i % 2 = 0) <;> simp_all

theorem oddEndsWord_lt (bs : Nat) (prev : Bool) : oddEndsWord bs prev < 2 ^ 64 := by
  unfold oddEndsWord
  apply Nat.or_lt_two_pow
  · exact Nat.and_lt_two_pow _ (not64_lt (by norm_num))
  · exact Nat.and_lt_two_pow _ (by norm_num)

theorem find_odd_backslash_sequences_spec (bs : Nat) (prev : Bool)
    (hbs : bs < 2 ^ 64) :
    (∀ i, i < 64 → (find_odd_backslash_sequences bs prev).1.testBit i =
        (eSeq bs prev i && !bs.testBit i)) ∧
      (find_odd_backslash_sequences bs prev).2 = eSeq bs prev 64 := by
  constructor
  · intro i hi
    rw [find_odd_backslash_sequences_eq]
    exact oddEndsWord_testBit bs prev hbs hi
  · rw [find_odd_backslash_sequences_eq]
    obtain ⟨_, inv2, _, _⟩ := odd_backslash_inv bs prev hbs 64 (le_refl _)
    have hOSlt : bsOddStarts bs prev < 2 ^ 64 :=
      lt_of_le_of_lt (le_trans Nat.and_le_left Nat.and_le_left) hbs
    have hc : addCarry bs (bsOddStarts bs prev) 64 =
        decide (U64 ≤ bs + bsOddStarts bs prev) := by
      unfold addCarry U64
      rw [Nat.mod_eq_of_lt hbs, Nat.mod_eq_of_lt hOSlt]
    rw [← hc, inv2]
    simp

theorem eSeq_run (bs : Nat) (prev : Bool) (p k : Nat)
    (hrun : ∀ j, j < k → bs.testBit (p + j) = true)
    (hbase : eSeq bs prev p = false) :
    ∀ j, j ≤ k → eSeq bs prev (p + j) = decide (j % 2 = 1) := by
  intro j
  induction j with
  | zero =>
    intro _
    simpa using hbase
  | succ m ihm =>
    intro hm
    have h1 : p + (m + 1) = (p + m) + 1 := by omega
    rw [h1]
    have h2 : eSeq bs prev ((p + m) + 1) =
        (bs.testBit (p + m) && !eSeq bs prev (p + m)) := rfl
    rw [h2, hrun m (by omega), ihm (by omega), Bool.true_and, parity_succ_one]
    rcases Nat.mod_two_eq_zero_or_one m with h | h <;> simp [h]

/-- C7: for a maximal run of `k ≥ 1` backslash bits of a lane word
starting at `p` (not preceded by a backslash, nor by a pending odd run
when `p = 0`) and immediately followed by a quote at `p + k`, the quote
position is in the `odd_ends` mask returned by
`find_odd_backslash_sequences` — and is therefore cleared from the
quote bits by `find_quote_mask_and_bits` — if and only if `k` is odd. -/
theorem claim7 (bs : Nat) (prev : Bool) (p k : Nat) (hbs : bs < 2 ^ 64)
    (hk : 1 ≤ k) (hq : p + k < 64)
    (hrun : ∀ j, j < k → bs.testBit (p + j) = true)
    (hend : bs.testBit (p + k) = false)
    (hpre0 : p = 0 → prev = false)
    (hpre1 : 1 ≤ p → bs.testBit (p - 1) = false) :
    (((find_odd_backslash_sequences bs prev).1.testBit (p + k) = true) ↔
        k % 2 = 1) ∧
      (∀ q em piq u : Nat, q.testBit (p + k) = true →
        (((find_quote_mask_and_bits u (find_odd_backslash_sequences bs prev).1
              piq q em).2.1.testBit (p + k) = false) ↔ k % 2 = 1)) := by
  have hbase : eSeq bs prev p = false := by
    cases p with
    | zero => simpa [eSeq] using hpre0 rfl
    | succ m =>
      have hb : bs.testBit m = false := by simpa using hpre1 (by omega)
      have h2 : eSeq bs prev (m + 1) = (bs.testBit m && !eSeq bs prev m) := rfl
      rw [h2, hb]
      simp
  have hspec := (find_odd_backslash_sequences_spec bs prev hbs).1 (p + k) hq
  have he := eSeq_run bs prev p k hrun hbase k (le_refl k)
  have hmain : (find_odd_backslash_sequences bs prev).1.testBit (p + k) =
      decide (k % 2 = 1) := by
    rw [hspec, he, hend]
    simp
  constructor
  · rw [hmain]
    simp
  · intro q em piq u hqbit
    have hoelt : (find_odd_backslash_sequences bs prev).1 < 2 ^ 64 := by
      rw [find_odd_backslash_sequences_eq]
      exact oddEndsWord_lt bs prev
    have hqb : (find_quote_mask_and_bits u
        (find_odd_backslash_sequences bs prev).1 piq q em).2.1 =
        q &&& not64 (find_odd_backslash_sequences bs prev).1 := rfl
    rw [hqb, Nat.testBit_and, testBit_not64 hoelt, hqbit, hmain]
    have h64 : decide (p + k < 64) = true := by simp [hq]
    rw [h64]
    rcases Nat.mod_two_eq_zero_or_one k with h | h <;> simp [h]

theorem claim7_witness :
    (((find_odd_backslash_sequences 2 false).1.testBit (1 + 1) = true) ↔
      1 % 2 = 1) :=
  (claim7 2 false 1 1 (by norm_num) (by decide) (by decide) (by decide)
    (by decide) (by decide) (by decide)).1

/-! ## Concrete scan of a small document -/

/-- C3: scanning the 7-byte document `{"a":1}` returns `SUCCESS`, sets
`n_structural_indexes` to 6, and writes exactly the offsets
`0, 1, 4, 5, 6, 7` (the final `7` being the virtual terminator), followed
by the guard slot `0`. -/
theorem claim3 :
    find_structural_bits [0x7B, 0x22, 0x61, 0x22, 0x3A, 0x31, 0x7D] 7
        ⟨64, by norm_num⟩ =
      ⟨SUCCESS, [0, 1, 4, 5, 6, 7, 0], some 6⟩ := by
  decide

/-- C8: a `JsonStream` constructed without an explicit `batch_size`
argument — from a pointer and length, or from a string — has
`batch_size = 1000000`. -/
theorem claim8 :
    (∀ (b : List Nat) (l : Nat), (JsonStream.make b l).batch_size = 1000000) ∧
      (∀ s : List Nat, (JsonStream.ofString s).batch_size = 1000000) :=
  ⟨fun _ _ => rfl, fun _ => rfl⟩

/-! ## Chunking independence -/

theorem runLanes_append (l1 : List (List Nat)) :
    ∀ (st : ScanState) (idx : Nat) (l2 : List (List Nat)),
      runLanes st idx (l1 ++ l2) =
        ((runLanes (runLanes st idx l1).1 (runLanes st idx l1).2.1 l2).1,
          (runLanes (runLanes st idx l1).1 (runLanes st idx l1).2.1 l2).2.1,
          (runLanes st idx l1).2.2 ++
            (runLanes (runLanes st idx l1).1
              (runLanes st idx l1).2.1 l2).2.2) := by
  induction l1 with
  | nil => intro st idx l2; simp [runLanes]
  | cons a l1 ih =>
    intro st idx l2
    have h1 : runLanes st idx ((a :: l1) ++ l2) =
        ((runLanes (stepLane st a idx).1 (idx + 64) (l1 ++ l2)).1,
          (runLanes (stepLane st a idx).1 (idx + 64) (l1 ++ l2)).2.1,
          (stepLane st a idx).2 ++
            (runLanes (stepLane st a idx).1 (idx + 64) (l1 ++ l2)).2.2) := rfl
    have h2 : runLanes st idx (a :: l1) =
        ((runLanes (stepLane st a idx).1 (idx + 64) l1).1,
          (runLanes (stepLane st a idx).1 (idx + 64) l1).2.1,
          (stepLane st a idx).2 ++
            (runLanes (stepLane st a idx).1 (idx + 64) l1).2.2) := rfl
    rw [h1, h2, ih]
    simp [List.append_assoc]

theorem toLanesAux_congr : ∀ (n f g : Nat) (l : List Nat),
    l.length ≤ n → l.length ≤ f → l.length ≤ g →
    toLanesAux f l = toLanesAux g l := by
  intro n
  induction n with
  | zero =>
    intro f g l hn hf hg
    have h : l = [] := List.eq_nil_of_length_eq_zero (by omega)
    subst h
    cases f <;> cases g <;> simp [toLanesAux]
  | succ n ih =>
    intro f g l hn hf hg
    cases l with
    | nil => cases f <;> cases g <;> simp [toLanesAux]
    | cons x xs =>
      obtain ⟨f2, rfl⟩ : ∃ f2, f = f2 + 1 := ⟨f - 1, by simp at hf; omega⟩
      obtain ⟨g2, rfl⟩ : ∃ g2, g = g2 + 1 := ⟨g - 1, by simp at hg; omega⟩
      show List.take 64 (x :: xs) :: toLanesAux f2 (List.drop 64 (x :: xs)) =
        List.take 64 (x :: xs) :: toLanesAux g2 (List.drop 64 (x :: xs))
      have hd : (List.drop 64 (x :: xs)).length ≤ n := by
        simp only [List.length_drop, List.length_cons] at *
        omega
      rw [ih f2 g2 _ hd
        (by simp only [List.length_drop, List.length_cons] at *; omega)
        (by simp only [List.length_drop, List.length_cons] at *; omega)]

theorem toLanesAux_fuel (f : Nat) (l : List Nat) (h : l.length ≤ f) :
    toLanesAux f l = toLanes l :=
  toLanesAux_congr l.length f l.length l (le_refl _) h (le_refl _)

theorem toLanes_cons_eq (l : List Nat) (h : l ≠ []) :
    toLanes l = l.take 64 :: toLanes (l.drop 64) := by
  cases l with
  | nil => exact absurd rfl h
  | cons x xs =>
    unfold toLanes
    have hR : toLanesAux (x :: xs).length (x :: xs) =
        List.take 64 (x :: xs) :: toLanesAux xs.length (List.drop 64 (x :: xs)) := by
      simp [List.length_cons, toLanesAux]
    rw [hR, toLanesAux_fuel xs.length _ (by simp [List.length_drop])]
    rfl

theorem toLanes_nil : toLanes [] = [] := rfl

theorem toLanes_append (n : Nat) :
    ∀ (a b : List Nat), a.length = 64 * n →
      toLanes (a ++ b) = toLanes a ++ toLanes b := by
  induction n with
  | zero =>
    intro a b ha
    have h : a = [] := List.eq_nil_of_length_eq_zero (by omega)
    subst h
    simp [toLanes_nil]
  | succ m ih =>
    intro a b ha
    have hne : a ≠ [] := by
      intro h
      subst h
      simp at ha
    by_cases hb : b = []
    · subst hb
      simp [toLanes_nil]
    · have hne2 : a ++ b ≠ [] := by simp [hne]
      have h64 : 64 ≤ a.length := by omega
      rw [toLanes_cons_eq (a ++ b) hne2, toLanes_cons_eq a hne,
        List.take_append_of_le_length h64, List.drop_append_of_le_length h64]
      have htail := ih (a.drop 64) b (by simp [List.length_drop]; omega)
      rw [htail]
      simp

theorem runChunks_eq (chunks : List (List Nat))
    (h : ∀ c ∈ chunks, c.length % 64 = 0) :
    ∀ (st : ScanState) (idx : Nat),
      runChunks st idx chunks = runLanes st idx (toLanes chunks.flatten) := by
  induction chunks with
  | nil =>
    intro st idx
    simp [runChunks, runLanes, toLanes, toLanesAux]
  | cons c cs ih =>
    intro st idx
    have hc := h c (by simp)
    obtain ⟨n, hn⟩ : ∃ n, c.length = 64 * n := ⟨c.length / 64, by omega⟩
    have hflat : (c :: cs).flatten = c ++ cs.flatten := rfl
    rw [show runChunks st idx (c :: cs) =
        ((runChunks (runLanes st idx (toLanes c)).1
            (runLanes st idx (toLanes c)).2.1 cs).1,
          (runChunks (runLanes st idx (toLanes c)).1
            (runLanes st idx (toLanes c)).2.1 cs).2.1,
          (runLanes st idx (toLanes c)).2.2 ++
            (runChunks (runLanes st idx (toLanes c)).1
              (runLanes st idx (toLanes c)).2.1 cs).2.2) from rfl]
    rw [hflat, toLanes_append n c cs.flatten hn, runLanes_append,
      ih (fun d hd => h d (by simp [hd]))]

/-- C2: splitting a buffer into chunks whose lengths are positive
multiples of `SIMD_WIDTH = 64` and running the chunk kernel over the
chunks in order, threading the six-field carry record (and the running
index) between calls, yields exactly the same carry record, index, and
sequence of structural offsets as scanning the whole buffer in a single
pass. -/
theorem claim2 (chunks : List (List Nat))
    (h : ∀ c ∈ chunks, 64 ≤ c.length ∧ c.length % 64 = 0) :
    runChunks initState 0 chunks =
      runLanes initState 0 (toLanes chunks.flatten) :=
  runChunks_eq chunks (fun c hc => (h c hc).2) initState 0

theorem claim2_witness :
    (∀ c ∈ [List.replicate 64 0x20, List.replicate 128 0x31],
        64 ≤ c.length ∧ c.length % 64 = 0) ∧
      runChunks initState 0 [List.replicate 64 0x20, List.replicate 128 0x31] =
        runLanes initState 0
          (toLanes ([List.replicate 64 0x20,
            List.replicate 128 0x31] : List (List Nat)).flatten) :=
  ⟨by decide, claim2 _ (by decide)⟩

/-! ## The driver reads only the first `len` bytes -/

theorem numFull_le (len : Nat) :
    64 * (((if len < 64 then 0 else len - 64) + 63) / 64) ≤ len := by
  by_cases h : len < 64
  · simp [h]
  · rw [if_neg h]
    have h1 : len - 64 + 63 = len - 1 := by omega
    rw [h1]
    have h2 := Nat.div_mul_le_self (len - 1) 64
    omega

theorem stage1Core_frame (b1 b2 : List Nat) (len : Nat)
    (h1 : len ≤ b1.length) (hagree : b1.take len = b2.take len) :
    stage1Core b1 len = stage1Core b2 len := by
  have hnf := numFull_le len
  have htk : ∀ k, k ≤ len → b1.take k = b2.take k := by
    intro k hk
    have h := congrArg (List.take k) hagree
    rwa [List.take_take, List.take_take, Nat.min_eq_left hk] at h
  simp only [stage1Core]
  rw [htk _ hnf]
  set r1 := runLanes initState 0
    (toLanes (b2.take (64 * (((if len < 64 then 0 else len - 64) + 63) / 64))))
  by_cases hidx : r1.2.1 < len
  · rw [if_pos hidx, if_pos hidx]
    have hdrop : (b1.drop r1.2.1).take (len - r1.2.1) =
        (b2.drop r1.2.1).take (len - r1.2.1) := by
      rw [← List.drop_take, ← List.drop_take, hagree]
    rw [hdrop]
  · rw [if_neg hidx, if_neg hidx]

/-- C10: the driver dereferences the input only at offsets strictly
below `len`: its full-lane loop reads lanes lying inside `[0, len)` and
the tail is first copied into a space-filled 64-byte scratch buffer, so
the result depends only on the first `len` bytes of the readable
buffer — any two buffers agreeing on those bytes give identical
results. -/
theorem claim10 (b1 b2 : List Nat) (len : Nat) (pj : ParsedJson)
    (h1 : len ≤ b1.length) (hagree : b1.take len = b2.take len) :
    find_structural_bits b1 len pj = find_structural_bits b2 len pj := by
  unfold find_structural_bits stage1AllOffsets
  rw [stage1Core_frame b1 b2 len h1 hagree]

theorem claim10_witness :
    ((1 : Nat) ≤ ([0x31, 0x99] : List Nat).length) ∧
      ([0x31, 0x99] : List Nat).take 1 = ([0x31, 0x42] : List Nat).take 1 ∧
      find_structural_bits [0x31, 0x99] 1 ⟨64, by norm_num⟩ =
        find_structural_bits [0x31, 0x42] 1 ⟨64, by norm_num⟩ :=
  ⟨by decide, by decide, claim10 _ _ _ _ (by decide) (by decide)⟩

/-! ## Which status codes the end-of-scan bookkeeping can produce -/

theorem stage1Tail_code_ne_unclosed (o : List Nat) (len err : Nat)
    (u8 : List Nat) : (stage1Tail o len err u8).code ≠ UNCLOSED_STRING := by
  unfold stage1Tail
  split
  · simp [EMPTY, UNCLOSED_STRING]
  · split
    · simp [UNEXPECTED_ERROR, UNCLOSED_STRING]
    · split <;> (try split) <;> (try split) <;>
        simp [UNESCAPED_CHARS, SUCCESS, UTF8_ERROR, UNCLOSED_STRING]

/-- C5: for any input within capacity, the driver returns
`UNCLOSED_STRING` if and only if the in-quote carry
`prev_iter_inside_quote` is non-zero after the last chunk; and the
4-byte input `"abc` returns `UNCLOSED_STRING`. -/
theorem claim5 :
    (∀ (buf : List Nat) (pj : ParsedJson), buf.length ≤ pj.byte_capacity →
        ((find_structural_bits buf buf.length pj).code = UNCLOSED_STRING ↔
          (stage1Core buf buf.length).1.prev_iter_inside_quote ≠ 0)) ∧
      (find_structural_bits [0x22, 0x61, 0x62, 0x63] 4
          ⟨64, by norm_num⟩).code = UNCLOSED_STRING := by
  constructor
  · intro buf pj hcap
    unfold find_structural_bits
    rw [if_neg (by omega)]
    by_cases hq : (stage1Core buf buf.length).1.prev_iter_inside_quote ≠ 0
    · rw [if_pos hq]
      simpa using hq
    · rw [if_neg hq]
      constructor
      · intro hc
        exact absurd hc (stage1Tail_code_ne_unclosed _ _ _ _)
      · intro hc
        exact absurd hc hq
  · decide

/-- C9: when the in-quote carry is non-zero at end of input, the driver
returns `UNCLOSED_STRING` before any other end-of-scan check: the
pending `prev_structurals` mask is not flattened into the index array
(only the offsets written during the lane loop are present) and
`pj.n_structural_indexes` is never assigned. -/
theorem claim9 (buf : List Nat) (pj : ParsedJson)
    (hcap : buf.length ≤ pj.byte_capacity)
    (hq : (stage1Core buf buf.length).1.prev_iter_inside_quote ≠ 0) :
    find_structural_bits buf buf.length pj =
      ⟨UNCLOSED_STRING, (stage1Core buf buf.length).2.2, none⟩ := by
  unfold find_structural_bits
  rw [if_neg (by omega), if_pos hq]

theorem claim9_witness :
    (([0x22, 0x61, 0x62, 0x63] : List Nat).length ≤
        (⟨64, by norm_num⟩ : ParsedJson).byte_capacity) ∧
      (stage1Core [0x22, 0x61, 0x62, 0x63] 4).1.prev_iter_inside_quote ≠ 0 ∧
      find_structural_bits [0x22, 0x61, 0x62, 0x63] 4 ⟨64, by norm_num⟩ =
        ⟨UNCLOSED_STRING, (stage1Core [0x22, 0x61, 0x62, 0x63] 4).2.2, none⟩ :=
  ⟨by decide, by decide, claim9 _ _ (by decide) (by decide)⟩

/-- C6: `find_quote_mask_and_bits` ORs `quote_mask AND (bytes ≤ 0x1F)`
into `error_mask`, so a control byte inside a string makes `error_mask`
non-zero; and for an input within capacity whose strings are all closed,
with at least one offset and the last offset not exceeding `len`, the
driver returns `UNESCAPED_CHARS` iff `error_mask` is non-zero at
completion — in particular for the input `"a\x01b"`. -/
theorem claim6 :
    (∀ unescaped odd_ends piq qb em : Nat,
        ((find_quote_mask_and_bits unescaped odd_ends piq qb em).2.2.2 =
            em |||
              ((find_quote_mask_and_bits unescaped odd_ends piq qb em).1 &&&
                unescaped)) ∧
          (∀ j : Nat,
            (find_quote_mask_and_bits unescaped odd_ends piq qb em).1.testBit j =
                true →
              unescaped.testBit j = true →
              (find_quote_mask_and_bits unescaped odd_ends piq qb em).2.2.2 ≠
                0)) ∧
      (∀ (buf : List Nat) (pj : ParsedJson),
        buf.length ≤ pj.byte_capacity →
        (stage1Core buf buf.length).1.prev_iter_inside_quote = 0 →
        (stage1AllOffsets buf buf.length).length ≠ 0 →
        (stage1AllOffsets buf buf.length).getD
            ((stage1AllOffsets buf buf.length).length - 1) 0 ≤ buf.length →
        ((find_structural_bits buf buf.length pj).code = UNESCAPED_CHARS ↔
          (stage1Core buf buf.length).1.error_mask ≠ 0)) ∧
      (find_structural_bits [0x22, 0x61, 0x01, 0x62, 0x22] 5
          ⟨64, by norm_num⟩).code = UNESCAPED_CHARS := by
  refine ⟨?_, ?_, ?_⟩
  · intro unescaped odd_ends piq qb em
    constructor
    · rfl
    · intro j h1 h2 hz
      have hb : ((find_quote_mask_and_bits unescaped odd_ends piq qb
          em).2.2.2).testBit j = true := by
        show (em |||
            ((find_quote_mask_and_bits unescaped odd_ends piq qb em).1 &&&
              unescaped)).testBit j = true
        rw [Nat.testBit_or, Nat.testBit_and, h1, h2]
        simp
      rw [hz] at hb
      simp at hb
  · intro buf pj hcap hq0 hbase hlast
    unfold find_structural_bits
    rw [if_neg (by omega), if_neg (by simp [hq0])]
    unfold stage1Tail
    rw [if_neg hbase, if_neg (by omega)]
    by_cases he : (stage1Core buf buf.length).1.error_mask ≠ 0
    · show (if buf.length ≠ _ then
          (⟨if (stage1Core buf buf.length).1.error_mask ≠ 0 then
              UNESCAPED_CHARS
            else if validUtf8 (stage1Core buf buf.length).1.utf8_bytes then
              SUCCESS else UTF8_ERROR, _, _⟩ : Stage1Result)
        else ⟨_, _, _⟩).code = UNESCAPED_CHARS ↔ _
      rw [if_pos he]
      split <;> simpa using he
    · show (if buf.length ≠ _ then
          (⟨if (stage1Core buf buf.length).1.error_mask ≠ 0 then
              UNESCAPED_CHARS
            else if validUtf8 (stage1Core buf buf.length).1.utf8_bytes then
              SUCCESS else UTF8_ERROR, _, _⟩ : Stage1Result)
        else ⟨_, _, _⟩).code = UNESCAPED_CHARS ↔ _
      rw [if_neg he]
      have hne : (if validUtf8 (stage1Core buf buf.length).1.utf8_bytes then
          SUCCESS else UTF8_ERROR) ≠ UNESCAPED_CHARS := by
        split <;> simp [SUCCESS, UTF8_ERROR, UNESCAPED_CHARS]
      split <;> simp [hne, he]
  · decide

theorem claim6_witness :
    ((find_structural_bits [0x22, 0x61, 0x01, 0x62, 0x22] 5
        ⟨64, by norm_num⟩).code = UNESCAPED_CHARS ↔
      (stage1Core [0x22, 0x61, 0x01, 0x62, 0x22] 5).1.error_mask ≠ 0) :=
  claim6.2.1 [0x22, 0x61, 0x01, 0x62, 0x22] ⟨64, by norm_num⟩ (by decide)
    (by decide) (by decide) (by decide)

theorem claim5_witness :
    (([] : List Nat).length ≤ (⟨0, by norm_num⟩ : ParsedJson).byte_capacity) ∧
      ((find_structural_bits [] 0 ⟨0, by norm_num⟩).code = UNCLOSED_STRING ↔
        (stage1Core [] 0).1.prev_iter_inside_quote ≠ 0) :=
  ⟨by decide, claim5.1 [] ⟨0, by norm_num⟩ (by decide)⟩

/-! ## Bridging one lane of the bitmask pipeline to the per-byte view -/

theorem lane_getD (P : List Nat) (a j : Nat) (hj : j < 64) :
    ((P.drop a).take 64).getD j 0 = P.getD (a + j) 0 := by
  simp [List.getD_eq_getElem?_getD, List.getElem?_take, hj, List.getElem?_drop]

theorem lane_length (P : List Nat) (a : Nat) (hlen : a + 64 ≤ P.length) :
    ((P.drop a).take 64).length = 64 := by
  simp [List.length_take, List.length_drop]
  omega

theorem maskOf_lane_testBit (p : Nat → Bool) (P : List Nat) (a : Nat)
    (hlen : a + 64 ≤ P.length) (j : Nat) (hj : j < 64) :
    (maskOf p ((P.drop a).take 64)).testBit j = p (P.getD (a + j) 0) := by
  rw [testBit_maskOf, lane_length P a hlen, lane_getD P a j hj]
  simp [hj]

theorem maskOf_lane_lt (p : Nat → Bool) (P : List Nat) (a : Nat)
    (hlen : a + 64 ≤ P.length) :
    maskOf p ((P.drop a).take 64) < 2 ^ 64 := by
  have h := maskOf_lt p ((P.drop a).take 64)
  rwa [lane_length P a hlen] at h

theorem eSeq_lane_gE (P : List Nat) (a : Nat) (hlen : a + 64 ≤ P.length) :
    ∀ j, j ≤ 64 →
      eSeq (maskOf (fun b => b == 0x5C) ((P.drop a).take 64)) (gE P a) j =
        gE P (a + j) := by
  intro j
  induction j with
  | zero => intro _; rfl
  | succ m ihm =>
    intro hm
    have h1 : eSeq (maskOf (fun b => b == 0x5C) ((P.drop a).take 64))
        (gE P a) (m + 1) =
        ((maskOf (fun b => b == 0x5C) ((P.drop a).take 64)).testBit m &&
          !eSeq (maskOf (fun b => b == 0x5C) ((P.drop a).take 64))
            (gE P a) m) := rfl
    have h2 : gE P (a + (m + 1)) =
        ((P.getD (a + m) 0 == 0x5C) && !gE P (a + m)) := by
      have h3 : a + (m + 1) = (a + m) + 1 := by omega
      rw [h3]
      rfl
    rw [h1, h2, maskOf_lane_testBit _ P a hlen m (by omega), ihm (by omega)]

theorem qb_lane_bits (P : List Nat) (a : Nat) (hlen : a + 64 ≤ P.length) :
    ∀ j,
      (maskOf (fun b => b == 0x22) ((P.drop a).take 64) &&&
          not64 (find_odd_backslash_sequences
            (maskOf (fun b => b == 0x5C) ((P.drop a).take 64))
            (gE P a)).1).testBit j =
        (decide (j < 64) && gUQ P (a + j)) := by
  intro j
  have hbslt := maskOf_lane_lt (fun b => b == 0x5C) P a hlen
  have hoelt : (find_odd_backslash_sequences
      (maskOf (fun b => b == 0x5C) ((P.drop a).take 64)) (gE P a)).1 < 2 ^ 64 := by
    rw [find_odd_backslash_sequences_eq]
    exact oddEndsWord_lt _ _
  rw [Nat.testBit_and, testBit_not64 hoelt]
  by_cases hj : j < 64
  · rw [maskOf_lane_testBit _ P a hlen j hj,
      (find_odd_backslash_sequences_spec _ _ hbslt).1 j hj,
      eSeq_lane_gE P a hlen j (by omega),
      maskOf_lane_testBit _ P a hlen j hj]
    unfold gUQ
    cases hbyte : (P.getD (a + j) 0 == 0x22)
    · have hb2 : P.getD (a + j) 0 ≠ 0x22 := by simpa using hbyte
      simp [hj, hb2]
    · have hv : P.getD (a + j) 0 = 0x22 := by simpa using hbyte
      simp [hj, hv]
      intro hc
      rw [← List.getD_eq_getElem?_getD] at hc
      exact absurd (hv.symm.trans hc) (by norm_num)
  · have h1 : (maskOf (fun b => b == 0x22) ((P.drop a).take 64)).testBit j =
        false :=
      testBit_high_of_lt (maskOf_lane_lt _ P a hlen) (by omega)
    simp [hj, h1]

theorem qpar_lane (P : List Nat) (a : Nat) :
    ∀ m, m ≤ 64 →
      (gQpar P a).xor (qpar (natOfBits (fun j => gUQ P (a + j)) 64) m) =
        gQpar P (a + m) := by
  intro m
  induction m with
  | zero => intro _; simp [qpar]
  | succ k ihk =>
    intro hk
    have h1 : qpar (natOfBits (fun j => gUQ P (a + j)) 64) (k + 1) =
        (qpar (natOfBits (fun j => gUQ P (a + j)) 64) k).xor
          ((natOfBits (fun j => gUQ P (a + j)) 64).testBit k) := rfl
    have h2 : gQpar P (a + (k + 1)) =
        (gQpar P (a + k)).xor (gUQ P (a + k)) := by
      have h3 : a + (k + 1) = (a + k) + 1 := by omega
      rw [h3]
      rfl
    rw [h1, h2, testBit_natOfBits, ← ihk (by omega)]
    have hk64 : decide (k < 64) = true := by
      simp only [decide_eq_true_eq]
      omega
    rw [hk64]
    cases gQpar P a <;> cases qpar (natOfBits (fun j => gUQ P (a + j)) 64) k <;>
      cases gUQ P (a + k) <;> simp

theorem testBit_broadcast (b : Bool) (j : Nat) :
    (if b then U64 - 1 else 0).testBit j = (decide (j < 64) && b) := by
  cases b
  · simp
  · show (U64 - 1).testBit j = _
    unfold U64
    rw [Nat.testBit_two_pow_sub_one]
    simp

theorem qpar_congr (x y : Nat) :
    ∀ m, (∀ j, j < m → x.testBit j = y.testBit j) → qpar x m = qpar y m := by
  intro m
  induction m with
  | zero => intro _; rfl
  | succ k ih =>
    intro h
    show (qpar x k).xor (x.testBit k) = (qpar y k).xor (y.testBit k)
    rw [ih (fun j hj => h j (by omega)), h k (by omega)]

theorem qm_lane_bits (P : List Nat) (a : Nat) (QB : Nat)
    (hQB : ∀ j, QB.testBit j = (decide (j < 64) && gUQ P (a + j))) :
    ∀ j, ((compute_quote_mask QB ^^^
        (if gQpar P a then U64 - 1 else 0)).testBit j) =
      (decide (j < 64) && gQM P (a + j)) := by
  intro j
  rw [Nat.testBit_xor, testBit_broadcast]
  unfold compute_quote_mask
  rw [testBit_cqmMask]
  by_cases hj : j < 64
  · have hcongr : qpar QB (j + 1) =
        qpar (natOfBits (fun j2 => gUQ P (a + j2)) 64) (j + 1) :=
      qpar_congr _ _ (j + 1)
        (fun j2 _ => by rw [hQB, testBit_natOfBits])
    have hq := qpar_lane P a (j + 1) (by omega)
    have hgqm : gQM P (a + j) = gQpar P (a + (j + 1)) := by
      unfold gQM
      have h3 : a + (j + 1) = (a + j) + 1 := by omega
      rw [h3]
    rw [hcongr, hgqm, ← hq]
    simp only [hj, decide_True, Bool.true_and]
    cases gQpar P a <;>
      cases qpar (natOfBits (fun j2 => gUQ P (a + j2)) 64) (j + 1) <;> simp
  · simp [hj]

theorem finalize_snd_eq (SC WS QM QB : Nat) (c : Bool) :
    (finalize_structurals SC WS QM QB c).2 =
      (((SC &&& not64 QM) ||| QB) ||| WS).testBit 63 := rfl

theorem pseudo_pred_bits (P : List Nat) (a : Nat) (SC WS QM QB : Nat)
    (hSC : ∀ j, SC.testBit j = (decide (j < 64) && gSC P (a + j)))
    (hWS : ∀ j, WS.testBit j = (decide (j < 64) && gWS P (a + j)))
    (hQM : ∀ j, QM.testBit j = (decide (j < 64) && gQM P (a + j)))
    (hQB : ∀ j, QB.testBit j = (decide (j < 64) && gUQ P (a + j)))
    (hQMlt : QM < 2 ^ 64) :
    ∀ j, (((SC &&& not64 QM) ||| QB) ||| WS).testBit j =
      (decide (j < 64) && gPseudoPred P (a + j)) := by
  intro j
  rw [Nat.testBit_or, Nat.testBit_or, Nat.testBit_and, testBit_not64 hQMlt,
    hSC, hWS, hQM, hQB]
  unfold gPseudoPred
  by_cases hj : j < 64
  · simp [hj]
  · simp [hj]

theorem finalize_fst_bits (P : List Nat) (a : Nat) (SC WS QM QB : Nat)
    (hSC : ∀ j, SC.testBit j = (decide (j < 64) && gSC P (a + j)))
    (hWS : ∀ j, WS.testBit j = (decide (j < 64) && gWS P (a + j)))
    (hQM : ∀ j, QM.testBit j = (decide (j < 64) && gQM P (a + j)))
    (hQB : ∀ j, QB.testBit j = (decide (j < 64) && gUQ P (a + j)))
    (hWSlt : WS < 2 ^ 64) (hQMlt : QM < 2 ^ 64) (hQBlt : QB < 2 ^ 64) :
    ∀ j, (finalize_structurals SC WS QM QB (gShift P a)).1.testBit j =
      (decide (j < 64) && gOut P (a + j)) := by
  intro j
  have hPP := pseudo_pred_bits P a SC WS QM QB hSC hWS hQM hQB hQMlt
  have hfst : (finalize_structurals SC WS QM QB (gShift P a)).1 =
      ((((SC &&& not64 QM) ||| QB) |||
        (((((((SC &&& not64 QM) ||| QB) ||| WS) <<< 1) % U64 |||
            (if gShift P a then 1 else 0)) &&& not64 WS) &&& not64 QM)) &&&
        not64 (QB &&& not64 QM)) := rfl
  rw [hfst]
  have hshift : ∀ m, m < 64 →
      ((((((SC &&& not64 QM) ||| QB) ||| WS) <<< 1) % U64 |||
        (if gShift P a then 1 else 0)).testBit m) = gShift P (a + m) := by
    intro m hm
    unfold U64
    rw [Nat.testBit_or, Nat.testBit_mod_two_pow, Nat.testBit_shiftLeft,
      testBit_boolVal]
    cases m with
    | zero => simp
    | succ k =>
      have h1 : k + 1 - 1 = k := rfl
      rw [h1, hPP k]
      have hk : k < 64 := by omega
      have h2 : gShift P (a + (k + 1)) = gPseudoPred P (a + k) := by
        have h3 : a + (k + 1) = (a + k) + 1 := by omega
        rw [h3]
        rfl
      rw [h2]
      simp [hm, hk]
  by_cases hj : j < 64
  · simp only [Nat.testBit_and, Nat.testBit_or, testBit_not64 hQMlt,
      testBit_not64 hWSlt,
      testBit_not64 (Nat.and_lt_two_pow QB (not64_lt hQMlt)),
      hSC, hWS, hQM, hQB, hshift j hj]
    unfold gOut
    simp [hj]
  · have hb1 : SC.testBit j = false := by rw [hSC]; simp [hj]
    have hb2 : QB.testBit j = false := by rw [hQB]; simp [hj]
    have hb3 : (not64 QM).testBit j = false := by
      rw [testBit_not64 hQMlt]; simp [hj]
    have hb4 : (not64 WS).testBit j = false := by
      rw [testBit_not64 hWSlt]; simp [hj]
    have hb5 : (not64 (QB &&& not64 QM)).testBit j = false := by
      rw [testBit_not64 (Nat.and_lt_two_pow QB (not64_lt hQMlt))]
      simp [hj]
    simp only [Nat.testBit_and, Nat.testBit_or, hb1, hb2, hb3, hb4, hb5]
    simp [hj]

theorem ScanState.ext' (x y : ScanState)
    (h1 : x.prev_iter_ends_odd_backslash = y.prev_iter_ends_odd_backslash)
    (h2 : x.prev_iter_inside_quote = y.prev_iter_inside_quote)
    (h3 : x.prev_iter_ends_pseudo_pred = y.prev_iter_ends_pseudo_pred)
    (h4 : x.prev_structurals = y.prev_structurals)
    (h5 : x.error_mask = y.error_mask)
    (h6 : x.utf8_bytes = y.utf8_bytes) : x = y := by
  cases x
  cases y
  simp_all

theorem maskOf_lane_bits (p : Nat → Bool) (P : List Nat) (a : Nat)
    (hlen : a + 64 ≤ P.length) :
    ∀ j, (maskOf p ((P.drop a).take 64)).testBit j =
      (decide (j < 64) && p (P.getD (a + j) 0)) := by
  intro j
  by_cases hj : j < 64
  · rw [maskOf_lane_testBit _ P a hlen j hj]
    simp [hj]
  · rw [testBit_high_of_lt (maskOf_lane_lt p P a hlen) (by omega)]
    simp [hj]

theorem stepLane_bridge (P : List Nat) (t : Nat)
    (hlen : 64 * (t + 1) ≤ P.length) :
    stepLane (stateAt P t) ((P.drop (64 * t)).take 64) (64 * t) =
      (stateAt P (t + 1), emitLane P t) := by
  have hlen' : 64 * t + 64 ≤ P.length := by omega
  have ha1 : 64 * t + 64 = 64 * (t + 1) := by ring
  have hbslt := maskOf_lane_lt (fun b => b == 0x5C) P (64 * t) hlen'
  have hOElt : (find_odd_backslash_sequences
      (maskOf (fun b => b == 0x5C) ((P.drop (64 * t)).take 64))
      (gE P (64 * t))).1 < 2 ^ 64 := by
    rw [find_odd_backslash_sequences_eq]
    exact oddEndsWord_lt _ _
  have hQBbits := qb_lane_bits P (64 * t) hlen'
  have hQBlt : (maskOf (fun b => b == 0x22) ((P.drop (64 * t)).take 64) &&&
      not64 (find_odd_backslash_sequences
        (maskOf (fun b => b == 0x5C) ((P.drop (64 * t)).take 64))
        (gE P (64 * t))).1) < 2 ^ 64 :=
    Nat.and_lt_two_pow _ (not64_lt hOElt)
  have hQMbits := qm_lane_bits P (64 * t) _ hQBbits
  have hblt : (if gQpar P (64 * t) then U64 - 1 else 0) < 2 ^ 64 := by
    unfold U64
    split <;> norm_num
  have hQMlt : (compute_quote_mask
      (maskOf (fun b => b == 0x22) ((P.drop (64 * t)).take 64) &&&
        not64 (find_odd_backslash_sequences
          (maskOf (fun b => b == 0x5C) ((P.drop (64 * t)).take 64))
          (gE P (64 * t))).1) ^^^
      (if gQpar P (64 * t) then U64 - 1 else 0)) < 2 ^ 64 :=
    Nat.xor_lt_two_pow (cqmMask_lt _ 64) hblt
  have hWSbits := maskOf_lane_bits isWhitespaceByte P (64 * t) hlen'
  have hSCbits := maskOf_lane_bits isStructuralByte P (64 * t) hlen'
  have hCtrlbits := maskOf_lane_bits (fun b => decide (b ≤ 0x1F)) P (64 * t)
    hlen'
  have hWSlt := maskOf_lane_lt isWhitespaceByte P (64 * t) hlen'
  have hCtrlt := maskOf_lane_lt (fun b => decide (b ≤ 0x1F)) P (64 * t) hlen'
  refine Prod.ext (ScanState.ext' _ _ ?_ ?_ ?_ ?_ ?_ ?_) rfl
  · -- prev_iter_ends_odd_backslash
    show (find_odd_backslash_sequences
        (maskOf (fun b => b == 0x5C) ((P.drop (64 * t)).take 64))
        (gE P (64 * t))).2 = gE P (64 * (t + 1))
    rw [(find_odd_backslash_sequences_spec _ _ hbslt).2,
      eSeq_lane_gE P (64 * t) hlen' 64 (le_refl _), ha1]
  · -- prev_iter_inside_quote
    show (if (compute_quote_mask
        (maskOf (fun b => b == 0x22) ((P.drop (64 * t)).take 64) &&&
          not64 (find_odd_backslash_sequences
            (maskOf (fun b => b == 0x5C) ((P.drop (64 * t)).take 64))
            (gE P (64 * t))).1) ^^^
        (if gQpar P (64 * t) then U64 - 1 else 0)).testBit 63 then U64 - 1
      else 0) = (if gQpar P (64 * (t + 1)) then U64 - 1 else 0)
    have h63 := hQMbits 63
    have hq : gQM P (64 * t + 63) = gQpar P (64 * (t + 1)) := by
      unfold gQM
      have h3 : (64 * t + 63) + 1 = 64 * (t + 1) := by ring
      rw [h3]
    rw [show (compute_quote_mask
        (maskOf (fun b => b == 0x22) ((P.drop (64 * t)).take 64) &&&
          not64 (find_odd_backslash_sequences
            (maskOf (fun b => b == 0x5C) ((P.drop (64 * t)).take 64))
            (gE P (64 * t))).1) ^^^
        (if gQpar P (64 * t) then U64 - 1 else 0)).testBit 63 =
        gQpar P (64 * (t + 1)) from by rw [h63, ← hq]; simp]
  · -- prev_iter_ends_pseudo_pred
    rw [show (stepLane (stateAt P t) ((P.drop (64 * t)).take 64)
        (64 * t)).1.prev_iter_ends_pseudo_pred =
        ((maskOf isStructuralByte ((P.drop (64 * t)).take 64) &&&
            not64 (compute_quote_mask
              (maskOf (fun b => b == 0x22) ((P.drop (64 * t)).take 64) &&&
                not64 (find_odd_backslash_sequences
                  (maskOf (fun b => b == 0x5C) ((P.drop (64 * t)).take 64))
                  (gE P (64 * t))).1) ^^^
              (if gQpar P (64 * t) then U64 - 1 else 0)) |||
            (maskOf (fun b => b == 0x22) ((P.drop (64 * t)).take 64) &&&
              not64 (find_odd_backslash_sequences
                (maskOf (fun b => b == 0x5C) ((P.drop (64 * t)).take 64))
                (gE P (64 * t))).1)) |||
          maskOf isWhitespaceByte ((P.drop (64 * t)).take 64)).testBit 63
      from rfl]
    rw [pseudo_pred_bits P (64 * t) _ _ _ _ hSCbits hWSbits hQMbits hQBbits
      hQMlt 63]
    show _ = gShift P (64 * (t + 1))
    have h3 : 64 * (t + 1) = (64 * t + 63) + 1 := by ring
    rw [h3]
    simp only [gShift]
    simp
  · -- prev_structurals
    show (finalize_structurals
        (maskOf isStructuralByte ((P.drop (64 * t)).take 64))
        (maskOf isWhitespaceByte ((P.drop (64 * t)).take 64))
        (compute_quote_mask
          (maskOf (fun b => b == 0x22) ((P.drop (64 * t)).take 64) &&&
            not64 (find_odd_backslash_sequences
              (maskOf (fun b => b == 0x5C) ((P.drop (64 * t)).take 64))
              (gE P (64 * t))).1) ^^^
          (if gQpar P (64 * t) then U64 - 1 else 0))
        (maskOf (fun b => b == 0x22) ((P.drop (64 * t)).take 64) &&&
          not64 (find_odd_backslash_sequences
            (maskOf (fun b => b == 0x5C) ((P.drop (64 * t)).take 64))
            (gE P (64 * t))).1)
        (gShift P (64 * t))).1 = prevStructMask P (t + 1)
    apply Nat.eq_of_testBit_eq
    intro j
    rw [finalize_fst_bits P (64 * t) _ _ _ _ hSCbits hWSbits hQMbits hQBbits
      hWSlt hQMlt hQBlt j]
    show _ = (natOfBits (fun j2 => gOut P (64 * t + j2)) 64).testBit j
    rw [testBit_natOfBits]
  · -- error_mask
    show (gErrAcc P t |||
        ((compute_quote_mask
          (maskOf (fun b => b == 0x22) ((P.drop (64 * t)).take 64) &&&
            not64 (find_odd_backslash_sequences
              (maskOf (fun b => b == 0x5C) ((P.drop (64 * t)).take 64))
              (gE P (64 * t))).1) ^^^
          (if gQpar P (64 * t) then U64 - 1 else 0)) &&&
          maskOf (fun b => decide (b ≤ 0x1F)) ((P.drop (64 * t)).take 64))) =
      gErrAcc P (t + 1)
    have herr : ((compute_quote_mask
        (maskOf (fun b => b == 0x22) ((P.drop (64 * t)).take 64) &&&
          not64 (find_odd_backslash_sequences
            (maskOf (fun b => b == 0x5C) ((P.drop (64 * t)).take 64))
            (gE P (64 * t))).1) ^^^
        (if gQpar P (64 * t) then U64 - 1 else 0)) &&&
        maskOf (fun b => decide (b ≤ 0x1F)) ((P.drop (64 * t)).take 64)) =
        natOfBits (fun j => gQM P (64 * t + j) && gCtrl P (64 * t + j)) 64 := by
      apply Nat.eq_of_testBit_eq
      intro j
      rw [Nat.testBit_and, hQMbits j, hCtrlbits j, testBit_natOfBits]
      by_cases hj : j < 64
      · simp only [hj, decide_True, Bool.true_and]
        rfl
      · simp [hj]
    rw [herr]
    rfl
  · -- utf8 bytes
    show P.take (64 * t) ++ (P.drop (64 * t)).take 64 = P.take (64 * (t + 1))
    rw [← List.take_add, ha1]

/-! ## Running the bridge over all lanes -/

theorem runLanes_bridge (P : List Nat) :
    ∀ (k t : Nat), 64 * (t + k) ≤ P.length →
      runLanes (stateAt P t) (64 * t)
          (toLanes ((P.drop (64 * t)).take (64 * k))) =
        (stateAt P (t + k), 64 * (t + k), emitBetween P t k) := by
  intro k
  induction k with
  | zero =>
    intro t hP
    show runLanes (stateAt P t) (64 * t)
        (toLanes ((P.drop (64 * t)).take 0)) = _
    rw [List.take_zero, toLanes_nil]
    show (stateAt P t, 64 * t, []) = _
    simp [emitBetween]
  | succ k ih =>
    intro t hP
    have hlen : 64 * (t + 1) ≤ P.length := by omega
    have hlen2 : 64 ≤ P.length - 64 * t := by omega
    have hne : (P.drop (64 * t)).take (64 * (k + 1)) ≠ [] := by
      intro h
      have h2 := congrArg List.length h
      simp only [List.length_take, List.length_drop, List.length_nil] at h2
      omega
    rw [toLanes_cons_eq _ hne]
    have htk : ((P.drop (64 * t)).take (64 * (k + 1))).take 64 =
        (P.drop (64 * t)).take 64 := by
      rw [List.take_take]
      congr 1
      omega
    have hdr : ((P.drop (64 * t)).take (64 * (k + 1))).drop 64 =
        (P.drop (64 * (t + 1))).take (64 * k) := by
      rw [List.drop_take, List.drop_drop]
      have e1 : 64 * (k + 1) - 64 = 64 * k := by omega
      have e2 : 64 * t + 64 = 64 * (t + 1) := by ring
      rw [e1, e2]
    rw [htk, hdr]
    have hcons : runLanes (stateAt P t) (64 * t)
        (((P.drop (64 * t)).take 64) ::
          toLanes ((P.drop (64 * (t + 1))).take (64 * k))) =
        ((runLanes (stepLane (stateAt P t) ((P.drop (64 * t)).take 64)
            (64 * t)).1 (64 * t + 64)
            (toLanes ((P.drop (64 * (t + 1))).take (64 * k)))).1,
          (runLanes (stepLane (stateAt P t) ((P.drop (64 * t)).take 64)
            (64 * t)).1 (64 * t + 64)
            (toLanes ((P.drop (64 * (t + 1))).take (64 * k)))).2.1,
          (stepLane (stateAt P t) ((P.drop (64 * t)).take 64) (64 * t)).2 ++
            (runLanes (stepLane (stateAt P t) ((P.drop (64 * t)).take 64)
              (64 * t)).1 (64 * t + 64)
              (toLanes ((P.drop (64 * (t + 1))).take (64 * k)))).2.2) := rfl
    rw [hcons, stepLane_bridge P t hlen]
    dsimp only
    have ht64 : 64 * t + 64 = 64 * (t + 1) := by ring
    rw [ht64, ih (t + 1) (by omega)]
    dsimp only
    have hidx : (t + 1) + k = t + (k + 1) := by omega
    rw [hidx]
    rfl

theorem bitPositions_zero : bitPositions 0 = [] := by decide

theorem emitLane_zero (L : List Nat) : emitLane L 0 = [] := by
  show flattenOffsets 0 (prevStructMask L 0) = []
  show flattenOffsets 0 0 = []
  unfold flattenOffsets
  rw [bitPositions_zero]
  rfl

theorem flatten_offset_eq (A b : Nat) (h1 : 64 ≤ A) (h2 : A ≤ 2 ^ 32)
    (hb : b < 64) :
    (A % 2 ^ 32 + (2 ^ 32 - 64) + b) % 2 ^ 32 = A - 64 + b := by
  rcases Nat.lt_or_ge A (2 ^ 32) with h | h
  · rw [Nat.mod_eq_of_lt h]
    have h3 : A + (2 ^ 32 - 64) + b = (A - 64 + b) + 2 ^ 32 := by omega
    rw [h3, Nat.add_mod_right, Nat.mod_eq_of_lt (by omega)]
  · have hA : A = 2 ^ 32 := by omega
    subst hA
    rw [Nat.mod_self]
    rw [Nat.mod_eq_of_lt (by omega)]
    omega

theorem filter_map_comm {α β : Type} (f : α → β) (p : β → Bool) :
    ∀ l : List α, (l.map f).filter p = (l.filter (fun x => p (f x))).map f := by
  intro l
  induction l with
  | nil => rfl
  | cons x xs ih =>
    rw [List.map_cons, List.filter_cons, List.filter_cons]
    cases hp : p (f x) <;> simp [hp, ih]

theorem emitLane_filter (L : List Nat) (s : Nat) (h : 64 * (s + 1) ≤ 2 ^ 32) :
    emitLane L (s + 1) = (List.range' (64 * s) 64).filter (fun i => gOut L i) := by
  unfold emitLane flattenOffsets
  have hbp : bitPositions (prevStructMask L (s + 1)) =
      (List.range 64).filter (fun i => gOut L (64 * s + i)) := by
    unfold bitPositions
    apply List.filter_congr
    intro i hi
    show (prevStructMask L (s + 1)).testBit i = _
    unfold prevStructMask
    rw [testBit_natOfBits]
    simp [List.mem_range.mp hi]
  rw [hbp, List.range'_eq_map_range,
    filter_map_comm (fun x => 64 * s + x) (fun i => gOut L i)]
  apply List.map_congr_left
  intro b hb
  have hb64 : b < 64 := List.mem_range.mp (List.mem_of_mem_filter hb)
  have := flatten_offset_eq (64 * (s + 1)) b (by omega) h hb64
  rw [this]
  omega

theorem emitBetween_snoc (L : List Nat) :
    ∀ k t, emitBetween L t (k + 1) = emitBetween L t k ++ emitLane L (t + k) := by
  intro k
  induction k with
  | zero =>
    intro t
    show emitLane L t ++ [] = [] ++ emitLane L (t + 0)
    simp
  | succ k ih =>
    intro t
    show emitLane L t ++ emitBetween L (t + 1) (k + 1) = _
    rw [ih (t + 1)]
    show _ = (emitLane L t ++ emitBetween L (t + 1) k) ++ emitLane L (t + (k + 1))
    rw [List.append_assoc]
    have hidx : (t + 1) + k = t + (k + 1) := by omega
    rw [hidx]

theorem fullEmit_filter (L : List Nat) :
    ∀ T, 64 * T ≤ 2 ^ 32 →
      emitBetween L 0 T ++ emitLane L T =
        (List.range (64 * T)).filter (fun i => gOut L i) := by
  intro T
  induction T with
  | zero =>
    intro _
    show [] ++ emitLane L 0 = _
    rw [emitLane_zero]
    rfl
  | succ T ih =>
    intro hT
    rw [emitBetween_snoc, Nat.zero_add, List.append_assoc,
      ← List.append_assoc, ih (by omega), emitLane_filter L T hT]
    have hsplit : List.range (64 * (T + 1)) =
        List.range (64 * T) ++ List.range' (64 * T) 64 := by
      rw [show 64 * (T + 1) = 64 * T + 64 from by ring, List.range_add,
        List.range'_eq_map_range]
    rw [hsplit, List.filter_append]

theorem paddedStream_length (buf : List Nat) :
    (paddedStream buf).length = 64 * numLanes buf.length := by
  unfold paddedStream numLanes
  simp only [List.length_append, List.length_replicate]
  omega

theorem initState_eq_stateAt (P : List Nat) : initState = stateAt P 0 := by
  apply ScanState.ext' <;>
    simp [initState, stateAt, gE, gQpar, gShift, prevStructMask, gErrAcc]

theorem stage1Core_bridge (buf : List Nat) (hpos : 0 < buf.length) :
    stage1Core buf buf.length =
      (stateAt (paddedStream buf) (numLanes buf.length),
        64 * numLanes buf.length,
        emitBetween (paddedStream buf) 0 (numLanes buf.length)) := by
  have hPlen := paddedStream_length buf
  have hT1 : numLanes buf.length =
      ((if buf.length < 64 then 0 else buf.length - 64) + 63) / 64 + 1 := by
    unfold numLanes
    by_cases h : buf.length < 64 <;> simp [h] <;> omega
  have hle : 64 * (((if buf.length < 64 then 0 else buf.length - 64) + 63) / 64)
      < buf.length := by
    by_cases h : buf.length < 64 <;> simp [h] <;> omega
  have hlen_le : buf.length ≤ 64 * numLanes buf.length := by
    unfold numLanes
    omega
  simp only [stage1Core]
  have hpre : buf.take (64 *
      (((if buf.length < 64 then 0 else buf.length - 64) + 63) / 64)) =
      ((paddedStream buf).drop (64 * 0)).take (64 *
        (((if buf.length < 64 then 0 else buf.length - 64) + 63) / 64)) := by
    rw [show (64 : Nat) * 0 = 0 from rfl, List.drop_zero]
    unfold paddedStream
    rw [List.take_append_of_le_length (by omega)]
  have hrunL : runLanes initState 0 (toLanes (buf.take (64 *
      (((if buf.length < 64 then 0 else buf.length - 64) + 63) / 64)))) =
      (stateAt (paddedStream buf)
          (((if buf.length < 64 then 0 else buf.length - 64) + 63) / 64),
        64 * (((if buf.length < 64 then 0 else buf.length - 64) + 63) / 64),
        emitBetween (paddedStream buf) 0
          (((if buf.length < 64 then 0 else buf.length - 64) + 63) / 64)) := by
    rw [hpre, initState_eq_stateAt (paddedStream buf)]
    have hb := runLanes_bridge (paddedStream buf)
      (((if buf.length < 64 then 0 else buf.length - 64) + 63) / 64) 0
      (by omega)
    simpa using hb
  rw [hrunL]
  dsimp only
  rw [if_pos hle]
  have htail : (buf.drop (64 *
      (((if buf.length < 64 then 0 else buf.length - 64) + 63) / 64))).take
        (buf.length - 64 *
          (((if buf.length < 64 then 0 else buf.length - 64) + 63) / 64)) ++
      List.replicate (64 - (buf.length - 64 *
        (((if buf.length < 64 then 0 else buf.length - 64) + 63) / 64))) 0x20 =
      ((paddedStream buf).drop (64 *
        (((if buf.length < 64 then 0 else buf.length - 64) + 63) / 64))).take
        64 := by
    unfold paddedStream
    rw [List.drop_append_of_le_length (by omega),
      List.take_append_eq_append_take, List.take_replicate]
    congr 1
    · rw [List.take_of_length_le (by simp [List.length_drop]),
        List.take_of_length_le (by simp [List.length_drop]; omega)]
    · congr 1
      simp only [List.length_drop, List.length_replicate]
      unfold numLanes
      omega
  rw [htail, stepLane_bridge (paddedStream buf)
    (((if buf.length < 64 then 0 else buf.length - 64) + 63) / 64)
    (by omega)]
  dsimp only
  rw [hT1]
  have hsnoc := emitBetween_snoc (paddedStream buf)
    (((if buf.length < 64 then 0 else buf.length - 64) + 63) / 64) 0
  rw [hsnoc, Nat.zero_add]
  have hadd : 64 * (((if buf.length < 64 then 0 else buf.length - 64) + 63) /
      64) + 64 =
      64 * ((((if buf.length < 64 then 0 else buf.length - 64) + 63) / 64) + 1)
      := by ring
  rw [hadd]

theorem paddedStream_getD_of_ge (buf : List Nat) (x : Nat)
    (h1 : buf.length ≤ x) (h2 : x < 64 * numLanes buf.length) :
    (paddedStream buf).getD x 0 = 0x20 := by
  unfold paddedStream
  rw [List.getD_append_right _ _ _ _ h1]
  have hidx : x - buf.length < 64 * numLanes buf.length - buf.length := by omega
  simp [List.getD_eq_getElem?_getD, List.getElem?_replicate, hidx]

theorem gOut_pad (buf : List Nat) (x : Nat)
    (h1 : buf.length ≤ x) (h2 : x < 64 * numLanes buf.length) :
    gOut (paddedStream buf) x = false := by
  have hb := paddedStream_getD_of_ge buf x h1 h2
  unfold gOut gSC gUQ gWS
  rw [hb]
  simp [isStructuralByte, isWhitespaceByte]

theorem stage1AllOffsets_eq (buf : List Nat) (hpos : 0 < buf.length)
    (hbound : 64 * numLanes buf.length ≤ 2 ^ 32) :
    stage1AllOffsets buf buf.length =
      (List.range (64 * numLanes buf.length)).filter
        (fun i => gOut (paddedStream buf) i) := by
  unfold stage1AllOffsets
  rw [stage1Core_bridge buf hpos]
  dsimp only
  rw [show flattenOffsets (64 * numLanes buf.length)
      (stateAt (paddedStream buf) (numLanes buf.length)).prev_structurals =
      emitLane (paddedStream buf) (numLanes buf.length) from rfl]
  exact fullEmit_filter (paddedStream buf) (numLanes buf.length) hbound

theorem stage1AllOffsets_mem (buf : List Nat) (hpos : 0 < buf.length)
    (hbound : 64 * numLanes buf.length ≤ 2 ^ 32) :
    ∀ x ∈ stage1AllOffsets buf buf.length,
      x < buf.length ∧ gOut (paddedStream buf) x = true := by
  intro x hx
  rw [stage1AllOffsets_eq buf hpos hbound] at hx
  have h1 := List.mem_filter.mp hx
  have hrange := List.mem_range.mp h1.1
  refine ⟨?_, h1.2⟩
  by_contra hge
  push_neg at hge
  have h2 := h1.2
  rw [gOut_pad buf x hge hrange] at h2
  exact absurd h2 (by simp)

theorem stage1AllOffsets_pairwise (buf : List Nat) (hpos : 0 < buf.length)
    (hbound : 64 * numLanes buf.length ≤ 2 ^ 32) :
    List.Pairwise (· < ·) (stage1AllOffsets buf buf.length) := by
  rw [stage1AllOffsets_eq buf hpos hbound]
  exact List.Pairwise.sublist (List.filter_sublist _) (List.pairwise_lt_range _)

theorem stage1Tail_append (o3 : List Nat) (len err : Nat) (u8 : List Nat)
    (hb0 : ¬ o3.length = 0)
    (hlt : ¬ len < o3.getD (o3.length - 1) 0)
    (hne : len ≠ o3.getD (o3.length - 1) 0) :
    stage1Tail o3 len err u8 =
      ⟨if err ≠ 0 then UNESCAPED_CHARS
        else if validUtf8 u8 then SUCCESS else UTF8_ERROR,
        o3 ++ [len % 2 ^ 32, 0], some (o3.length + 1)⟩ := by
  unfold stage1Tail
  rw [if_neg hb0, if_neg hlt]
  show (if len ≠ o3.getD (o3.length - 1) 0 then
      (⟨if err ≠ 0 then UNESCAPED_CHARS
        else if validUtf8 u8 then SUCCESS else UTF8_ERROR,
        o3 ++ [len % 2 ^ 32, 0], some (o3.length + 1)⟩ : Stage1Result)
    else ⟨if err ≠ 0 then UNESCAPED_CHARS
      else if validUtf8 u8 then SUCCESS else UTF8_ERROR,
      o3 ++ [0], some o3.length⟩) = _
  rw [if_pos hne]

/-- C4: whenever the driver returns `SUCCESS`, the reported offsets are
strictly increasing, all lie in `[0, len]`, the last reported offset
equals `len`, and the slot one beyond the reported count holds `0`. -/
theorem claim4 (buf : List Nat) (pj : ParsedJson)
    (hs : (find_structural_bits buf buf.length pj).code = SUCCESS) :
    ∃ m, (find_structural_bits buf buf.length pj).n_structural_indexes =
        some m ∧
      0 < m ∧
      List.Pairwise (· < ·)
        ((find_structural_bits buf buf.length pj).written.take m) ∧
      (∀ x ∈ (find_structural_bits buf buf.length pj).written.take m,
        x ≤ buf.length) ∧
      (find_structural_bits buf buf.length pj).written.getD (m - 1) 0 =
        buf.length ∧
      (find_structural_bits buf buf.length pj).written.getD m 1 = 0 := by
  by_cases hc : buf.length > pj.byte_capacity
  · exfalso
    unfold find_structural_bits at hs
    rw [if_pos hc] at hs
    exact absurd hs (by simp [CAPACITY, SUCCESS])
  by_cases h0 : buf.length = 0
  · exfalso
    have hbe : buf = [] := List.eq_nil_of_length_eq_zero h0
    subst hbe
    have heval : find_structural_bits [] ([] : List Nat).length pj =
        ⟨EMPTY, [], some 0⟩ := by
      unfold find_structural_bits
      rw [if_neg (by simp)]
      rfl
    rw [heval] at hs
    exact absurd hs (by simp [EMPTY, SUCCESS])
  have hpos : 0 < buf.length := by omega
  have hb32 : buf.length ≤ 4294967295 := le_trans (by omega) pj.capacity_le
  have hbound : 64 * numLanes buf.length ≤ 2 ^ 32 := by
    unfold numLanes
    omega
  by_cases hq : (stage1Core buf buf.length).1.prev_iter_inside_quote ≠ 0
  · exfalso
    unfold find_structural_bits at hs
    rw [if_neg hc, if_pos hq] at hs
    exact absurd hs (by simp [UNCLOSED_STRING, SUCCESS])
  have hpath : find_structural_bits buf buf.length pj =
      stage1Tail (stage1AllOffsets buf buf.length) buf.length
        (stage1Core buf buf.length).1.error_mask
        (stage1Core buf buf.length).1.utf8_bytes := by
    unfold find_structural_bits
    rw [if_neg hc, if_neg hq]
  have hmem := stage1AllOffsets_mem buf hpos hbound
  have hpair := stage1AllOffsets_pairwise buf hpos hbound
  by_cases hb0 : (stage1AllOffsets buf buf.length).length = 0
  · exfalso
    rw [hpath] at hs
    unfold stage1Tail at hs
    rw [if_pos hb0] at hs
    exact absurd hs (by simp [EMPTY, SUCCESS])
  have hlast_mem : (stage1AllOffsets buf buf.length).getD
      ((stage1AllOffsets buf buf.length).length - 1) 0 ∈
      stage1AllOffsets buf buf.length := by
    have hlt : (stage1AllOffsets buf buf.length).length - 1 <
        (stage1AllOffsets buf buf.length).length := by omega
    rw [List.getD_eq_getElem?_getD, List.getElem?_eq_getElem hlt]
    simpa using List.getElem_mem hlt
  have hlastlt : (stage1AllOffsets buf buf.length).getD
      ((stage1AllOffsets buf buf.length).length - 1) 0 < buf.length :=
    (hmem _ hlast_mem).1
  have hmod : buf.length % 2 ^ 32 = buf.length := Nat.mod_eq_of_lt (by omega)
  rw [hpath, stage1Tail_append _ _ _ _ hb0 (by omega) (by omega), hmod]
  refine ⟨(stage1AllOffsets buf buf.length).length + 1, rfl, by omega, ?_, ?_,
    ?_, ?_⟩
  · rw [List.take_append_eq_append_take, List.take_of_length_le (by omega)]
    have h1 : (stage1AllOffsets buf buf.length).length + 1 -
        (stage1AllOffsets buf buf.length).length = 1 := by omega
    rw [h1]
    rw [show List.take 1 [buf.length, 0] = [buf.length] from rfl]
    rw [List.pairwise_append]
    refine ⟨hpair, by simp, ?_⟩
    intro a ha b hb
    have hb2 : b = buf.length := by simpa using hb
    subst hb2
    exact (hmem a ha).1
  · intro x hx
    rw [List.take_append_eq_append_take, List.take_of_length_le (by omega)]
      at hx
    have h1 : (stage1AllOffsets buf buf.length).length + 1 -
        (stage1AllOffsets buf buf.length).length = 1 := by omega
    rw [h1, show List.take 1 [buf.length, 0] = [buf.length] from rfl] at hx
    rcases List.mem_append.mp hx with h | h
    · exact le_of_lt (hmem x h).1
    · have : x = buf.length := by simpa using h
      omega
  · have h1 : (stage1AllOffsets buf buf.length).length + 1 - 1 =
        (stage1AllOffsets buf buf.length).length := by omega
    rw [h1, List.getD_append_right _ _ _ _ (le_refl _)]
    simp
  · rw [List.getD_append_right _ _ _ _ (by omega)]
    have h1 : (stage1AllOffsets buf buf.length).length + 1 -
        (stage1AllOffsets buf buf.length).length = 1 := by omega
    rw [h1]
    rfl

theorem claim4_witness :
    ((find_structural_bits [0x5B, 0x5D] 2 ⟨64, by norm_num⟩).code = SUCCESS) ∧
      (∃ m, (find_structural_bits [0x5B, 0x5D] 2
          ⟨64, by norm_num⟩).n_structural_indexes = some m ∧
        0 < m ∧
        List.Pairwise (· < ·)
          ((find_structural_bits [0x5B, 0x5D] 2
            ⟨64, by norm_num⟩).written.take m) ∧
        (∀ x ∈ (find_structural_bits [0x5B, 0x5D] 2
            ⟨64, by norm_num⟩).written.take m,
          x ≤ ([0x5B, 0x5D] : List Nat).length) ∧
        (find_structural_bits [0x5B, 0x5D] 2
          ⟨64, by norm_num⟩).written.getD (m - 1) 0 =
          ([0x5B, 0x5D] : List Nat).length ∧
        (find_structural_bits [0x5B, 0x5D] 2
          ⟨64, by norm_num⟩).written.getD m 1 = 0) :=
  ⟨by decide, claim4 [0x5B, 0x5D] ⟨64, by norm_num⟩ (by decide)⟩

/-! ## String-literal spans -/

theorem getD_padded_lt (buf : List Nat) (j : Nat) (hj : j < buf.length) :
    (paddedStream buf).getD j 0 = buf.getD j 0 := by
  unfold paddedStream
  exact List.getD_append _ _ _ _ hj

theorem gE_padded (buf : List Nat) : ∀ i, i ≤ buf.length →
    gE (paddedStream buf) i = gE buf i := by
  intro i
  induction i with
  | zero => intro _; rfl
  | succ j ih =>
    intro hj
    show (((paddedStream buf).getD j 0 == 0x5C) && !gE (paddedStream buf) j) = _
    rw [getD_padded_lt buf j (by omega), ih (by omega)]
    rfl

theorem gUQ_padded (buf : List Nat) (i : Nat) (hi : i < buf.length) :
    gUQ (paddedStream buf) i = gUQ buf i := by
  unfold gUQ
  rw [getD_padded_lt buf i hi, gE_padded buf i (by omega)]

theorem gQpar_padded (buf : List Nat) : ∀ i, i ≤ buf.length →
    gQpar (paddedStream buf) i = gQpar buf i := by
  intro i
  induction i with
  | zero => intro _; rfl
  | succ j ih =>
    intro hj
    show ((gQpar (paddedStream buf) j).xor (gUQ (paddedStream buf) j)) = _
    rw [ih (by omega), gUQ_padded buf j (by omega)]
    rfl

theorem span_gQpar (L : List Nat) (o c : Nat) (ho : gUQ L o = true)
    (hq0 : gQpar L o = false)
    (hmid : ∀ j, o < j → j < c → gUQ L j = false) :
    ∀ j, o < j → j ≤ c → gQpar L j = true := by
  intro j
  induction j with
  | zero => intro h _; omega
  | succ k ih =>
    intro h1 h2
    show ((gQpar L k).xor (gUQ L k)) = true
    by_cases hk : o < k
    · rw [ih hk (by omega), hmid k hk (by omega)]
      rfl
    · have hko : k = o := by omega
      subst hko
      rw [hq0, ho]
      rfl

theorem span_gOut (L : List Nat) (o c : Nat) (ho_lt : o < c)
    (huqo : gUQ L o = true) (huqc : gUQ L c = true)
    (hq0 : gQpar L o = false)
    (hmid : ∀ j, o < j → j < c → gUQ L j = false) :
    gOut L o = true ∧ (∀ j, o < j → j ≤ c → gOut L j = false) := by
  have hqspan := span_gQpar L o c huqo hq0 hmid
  constructor
  · have hqm : gQM L o = true := hqspan (o + 1) (by omega) (by omega)
    unfold gOut
    rw [huqo, hqm]
    simp
  · intro j hj1 hj2
    by_cases hjc : j < c
    · have hqm : gQM L j = true := hqspan (j + 1) (by omega) (by omega)
      have huq : gUQ L j = false := hmid j hj1 hjc
      unfold gOut
      rw [huq, hqm]
      simp
    · have hjc2 : j = c := by omega
      subst hjc2
      have hqc : gQpar L j = true := hqspan j hj1 (le_refl _)
      have hqmc : gQM L j = false := by
        show ((gQpar L j).xor (gUQ L j)) = false
        rw [hqc, huqc]
        rfl
      unfold gOut
      rw [huqc, hqmc]
      simp

theorem filter_range_singleton (p : Nat → Bool) (o : Nat)
    (hp : ∀ i, p i = decide (i = o)) :
    ∀ n, (List.range n).filter p = if o < n then [o] else [] := by
  intro n
  induction n with
  | zero => simp
  | succ n ih =>
    rw [List.range_succ, List.filter_append, ih]
    by_cases h : o < n
    · have hn : p n = false := by
        rw [hp]
        simp [show n ≠ o by omega]
      simp [h, hn, show o < n + 1 by omega]
    · by_cases h2 : o = n
      · subst h2
        have hn : p o = true := by
          rw [hp]
          simp
        simp [h, hn]
      · have hn : p n = false := by
          rw [hp]
          simp [show ¬ n = o from fun hh => h2 hh.symm]
        simp [h, hn, show ¬ o < n + 1 by omega]

/-- C1: the original claim is false — inside a well-formed string literal's
byte span, `find_structural_bits` emits exactly ONE offset (the opening
quote), not two.  The pseudo-structural head at opening+1 is suppressed
because the quote mask still covers it.  Amended statement proved here:
for every buffer within capacity containing a well-formed literal from
offset `o` (unescaped opening quote) to `c` (matching unescaped closing
quote), if the scan does not end in `UNCLOSED_STRING`, the filter of the
reported offsets to the span `[o, c]` is exactly `[o]`: the opening quote
is emitted, and neither the byte after it nor the closing quote is. -/
theorem claim1 (buf : List Nat) (pj : ParsedJson) (o c : Nat)
    (hcap : ¬ buf.length > pj.byte_capacity)
    (hwf : wfLiteralB buf o c = true)
    (hnq : (find_structural_bits buf buf.length pj).code ≠ UNCLOSED_STRING) :
    ∃ m, (find_structural_bits buf buf.length pj).n_structural_indexes =
        some m ∧
      ((find_structural_bits buf buf.length pj).written.take m).filter
        (fun i => decide (o ≤ i) && decide (i ≤ c)) = [o] := by
  simp only [wfLiteralB, Bool.and_eq_true, decide_eq_true_eq,
    Bool.not_eq_true'] at hwf
  obtain ⟨⟨⟨⟨⟨holt, hclt⟩, huqo⟩, huqc⟩, hmid⟩, hq0⟩ := hwf
  have hpos : 0 < buf.length := by omega
  have hb32 : buf.length ≤ 4294967295 :=
    le_trans (show buf.length ≤ pj.byte_capacity by omega) pj.capacity_le
  have hbound : 64 * numLanes buf.length ≤ 2 ^ 32 := by
    unfold numLanes
    omega
  have hlen_le : buf.length ≤ 64 * numLanes buf.length := by
    unfold numLanes
    omega
  by_cases hq : (stage1Core buf buf.length).1.prev_iter_inside_quote ≠ 0
  · exfalso
    apply hnq
    unfold find_structural_bits
    rw [if_neg hcap, if_pos hq]
  have hpath : find_structural_bits buf buf.length pj =
      stage1Tail (stage1AllOffsets buf buf.length) buf.length
        (stage1Core buf buf.length).1.error_mask
        (stage1Core buf buf.length).1.utf8_bytes := by
    unfold find_structural_bits
    rw [if_neg hcap, if_neg hq]
  have huqo' : gUQ (paddedStream buf) o = true := by
    rw [gUQ_padded buf o (by omega)]
    exact huqo
  have huqc' : gUQ (paddedStream buf) c = true := by
    rw [gUQ_padded buf c (by omega)]
    exact huqc
  have hmid' : ∀ j, o < j → j < c → gUQ (paddedStream buf) j = false := by
    intro j h1 h2
    rw [gUQ_padded buf j (by omega)]
    exact hmid j h2 h1
  have hq0' : gQpar (paddedStream buf) o = false := by
    rw [gQpar_padded buf o (by omega)]
    exact hq0
  obtain ⟨hout_o, hout_span⟩ :=
    span_gOut (paddedStream buf) o c holt huqo' huqc' hq0' hmid'
  have ho_mem : o ∈ stage1AllOffsets buf buf.length := by
    rw [stage1AllOffsets_eq buf hpos hbound]
    exact List.mem_filter.mpr ⟨List.mem_range.mpr (by omega), hout_o⟩
  have hb0 : ¬ (stage1AllOffsets buf buf.length).length = 0 := by
    intro h
    rw [List.eq_nil_of_length_eq_zero h] at ho_mem
    exact (List.not_mem_nil o) ho_mem
  have hmem := stage1AllOffsets_mem buf hpos hbound
  have hlast_mem : (stage1AllOffsets buf buf.length).getD
      ((stage1AllOffsets buf buf.length).length - 1) 0 ∈
      stage1AllOffsets buf buf.length := by
    have hlt : (stage1AllOffsets buf buf.length).length - 1 <
        (stage1AllOffsets buf buf.length).length := by omega
    rw [List.getD_eq_getElem?_getD, List.getElem?_eq_getElem hlt]
    simpa using List.getElem_mem hlt
  have hlastlt : (stage1AllOffsets buf buf.length).getD
      ((stage1AllOffsets buf buf.length).length - 1) 0 < buf.length :=
    (hmem _ hlast_mem).1
  have hmod : buf.length % 2 ^ 32 = buf.length := Nat.mod_eq_of_lt (by omega)
  have hpred : ∀ i, ((decide (o ≤ i) && decide (i ≤ c)) &&
      gOut (paddedStream buf) i) = decide (i = o) := by
    intro i
    by_cases hio : i = o
    · subst hio
      simp [hout_o, show i ≤ c by omega]
    · by_cases hspan : o ≤ i ∧ i ≤ c
      · have hlt : o < i := by omega
        rw [hout_span i hlt hspan.2]
        simp [hio]
      · rcases not_and_or.mp hspan with h | h
        · rw [show decide (o ≤ i) = false from by simpa using h]
          simp [hio]
        · rw [show decide (i ≤ c) = false from by simpa using h]
          simp [hio]
  have hsing : (stage1AllOffsets buf buf.length).filter
      (fun i => decide (o ≤ i) && decide (i ≤ c)) = [o] := by
    rw [stage1AllOffsets_eq buf hpos hbound, List.filter_filter,
      filter_range_singleton _ o hpred (64 * numLanes buf.length),
      if_pos (by omega : o < 64 * numLanes buf.length)]
  rw [hpath, stage1Tail_append _ _ _ _ hb0 (by omega) (by omega), hmod]
  refine ⟨(stage1AllOffsets buf buf.length).length + 1, rfl, ?_⟩
  rw [List.take_append_eq_append_take, List.take_of_length_le (by omega)]
  have h1 : (stage1AllOffsets buf buf.length).length + 1 -
      (stage1AllOffsets buf buf.length).length = 1 := by omega
  rw [h1, show List.take 1 [buf.length, 0] = [buf.length] from rfl,
    List.filter_append, hsing]
  have hlenf : (decide (o ≤ buf.length) && decide (buf.length ≤ c)) =
      false := by
    simp [show ¬ buf.length ≤ c by omega]
  simp [List.filter_cons, hlenf]

theorem claim1_counterexample :
    wfLiteralB [0x7B, 0x22, 0x61, 0x22, 0x3A, 0x31, 0x7D] 1 3 = true ∧
      (find_structural_bits [0x7B, 0x22, 0x61, 0x22, 0x3A, 0x31, 0x7D] 7
        ⟨64, by norm_num⟩).code = SUCCESS ∧
      ((find_structural_bits [0x7B, 0x22, 0x61, 0x22, 0x3A, 0x31, 0x7D] 7
          ⟨64, by norm_num⟩).written.take 6).filter
        (fun i => decide (1 ≤ i) && decide (i ≤ 3)) = [1] ∧
      ((find_structural_bits [0x7B, 0x22, 0x61, 0x22, 0x3A, 0x31, 0x7D] 7
          ⟨64, by norm_num⟩).written.take 6).filter
        (fun i => decide (1 ≤ i) && decide (i ≤ 3)) ≠ [1, 2] := by
  refine ⟨by decide, by decide, by decide, by decide⟩

theorem claim1_witness :
    (¬ ([0x7B, 0x22, 0x61, 0x22, 0x3A, 0x31, 0x7D] : List Nat).length >
        (⟨64, by norm_num⟩ : ParsedJson).byte_capacity) ∧
      (∃ m, (find_structural_bits [0x7B, 0x22, 0x61, 0x22, 0x3A, 0x31, 0x7D]
          ([0x7B, 0x22, 0x61, 0x22, 0x3A, 0x31, 0x7D] : List Nat).length
          ⟨64, by norm_num⟩).n_structural_indexes = some m ∧
        ((find_structural_bits [0x7B, 0x22, 0x61, 0x22, 0x3A, 0x31, 0x7D]
            ([0x7B, 0x22, 0x61, 0x22, 0x3A, 0x31, 0x7D] : List Nat).length
            ⟨64, by norm_num⟩).written.take m).filter
          (fun i => decide (1 ≤ i) && decide (i ≤ 3)) = [1]) :=
  ⟨by decide,
    claim1 [0x7B, 0x22, 0x61, 0x22, 0x3A, 0x31, 0x7D] ⟨64, by norm_num⟩ 1 3
      (by decide) (by decide) (by decide)⟩
